import Mathlib

/-!
Verification development for the dataset-stats library (src/index.js and the
alternate batchPredict implementation in src/unnamed/part_000).

Shallow embedding conventions:
* JS records (plain objects) are association lists `List (String × Val)` kept in
  property-insertion order, mirroring JS object key order.
* JS numbers are embedded as `Rat` (exact arithmetic; the claims under study are
  about the closed-form OLS algebra, not double rounding).
* JS exceptions are `Except JsError`; the two explicit `throw new Error(...)`
  sites of `linearRegressionPredictor` become `invalidInput` and
  `insufficientData`, and runtime TypeErrors (calling `.push`/`.length`/indexing
  on `undefined`, etc.) become `typeError`.
-/

namespace DatasetStats

/-- Kernel-computable rational addition (`Rat.add` is `@[irreducible]` in this
toolchain; this `mkRat` form is proved equal to `+` in `rAdd_eq`). -/
def rAdd (a b : Rat) : Rat := mkRat (a.num * b.den + b.num * a.den) (a.den * b.den)

/-- Kernel-computable rational subtraction; equals `-` by `rSub_eq`. -/
def rSub (a b : Rat) : Rat := mkRat (a.num * b.den - b.num * a.den) (a.den * b.den)

/-- Kernel-computable rational multiplication; equals `*` by `rMul_eq`. -/
def rMul (a b : Rat) : Rat := mkRat (a.num * b.num) (a.den * b.den)

/-- Kernel-computable rational division (0 on a zero divisor, matching `Rat`);
equals `/` by `rDiv_eq`. -/
def rDiv (a b : Rat) : Rat := Rat.divInt (a.num * b.den) (a.den * b.num)

/-- `Math.pow(x, 2)`. -/
def rPow2 (a : Rat) : Rat := rMul a a

/-- JS exception kinds arising in this library: the two explicit throws of
`linearRegressionPredictor` plus runtime TypeErrors. -/
inductive JsError where
  | invalidInput
  | insufficientData
  | typeError
deriving DecidableEq

/-- JS values stored in record fields: strings, numbers (as `Rat`), arrays, and
`undefined` (the result of reading a missing property / out-of-bounds index). -/
inductive Val where
  | str : String → Val
  | num : Rat → Val
  | arr : List Val → Val
  | undef : Val

mutual

/-- Boolean structural equality on `Val` (JS strict equality on these values). -/
def Val.beq : Val → Val → Bool
  | .str a, .str b => a == b
  | .num a, .num b => decide (a = b)
  | .undef, .undef => true
  | .arr a, .arr b => Val.beqList a b
  | _, _ => false

/-- Elementwise equality of value arrays. -/
def Val.beqList : List Val → List Val → Bool
  | [], [] => true
  | x :: xs, y :: ys => Val.beq x y && Val.beqList xs ys
  | _, _ => false

end

mutual

theorem Val.beq_iff : ∀ a b : Val, Val.beq a b = true ↔ a = b
  | .str a, .str b => by simp [Val.beq]
  | .num a, .num b => by simp [Val.beq]
  | .undef, .undef => by simp [Val.beq]
  | .arr a, .arr b => by
      simp only [Val.beq, Val.beqList_iff a b]
      exact ⟨fun h => by rw [h], fun h => by cases h; rfl⟩
  | .str _, .num _ => by simp [Val.beq]
  | .str _, .arr _ => by simp [Val.beq]
  | .str _, .undef => by simp [Val.beq]
  | .num _, .str _ => by simp [Val.beq]
  | .num _, .arr _ => by simp [Val.beq]
  | .num _, .undef => by simp [Val.beq]
  | .arr _, .str _ => by simp [Val.beq]
  | .arr _, .num _ => by simp [Val.beq]
  | .arr _, .undef => by simp [Val.beq]
  | .undef, .str _ => by simp [Val.beq]
  | .undef, .num _ => by simp [Val.beq]
  | .undef, .arr _ => by simp [Val.beq]

theorem Val.beqList_iff : ∀ a b : List Val, Val.beqList a b = true ↔ a = b
  | [], [] => by simp [Val.beqList]
  | [], _ :: _ => by simp [Val.beqList]
  | _ :: _, [] => by simp [Val.beqList]
  | x :: xs, y :: ys => by
      simp only [Val.beqList, Bool.and_eq_true, Val.beq_iff x y,
        Val.beqList_iff xs ys, List.cons.injEq]

end

instance : DecidableEq Val := fun a b =>
  decidable_of_iff (Val.beq a b = true) (Val.beq_iff a b)

instance {e a : Type} [DecidableEq e] [DecidableEq a] : DecidableEq (Except e a) :=
  fun x y =>
  match x, y with
  | .ok u, .ok v =>
      if h : u = v then .isTrue (by rw [h]) else .isFalse (by intro c; cases c; exact h rfl)
  | .error u, .error v =>
      if h : u = v then .isTrue (by rw [h]) else .isFalse (by intro c; cases c; exact h rfl)
  | .ok _, .error _ => .isFalse (by intro c; cases c)
  | .error _, .ok _ => .isFalse (by intro c; cases c)

/-- A JS object: an association list of properties in insertion order. -/
abbrev Record := List (String × Val)

/-- Property lookup (`item[k]` as an `Option`). -/
def findVal : Record → String → Option Val
  | [], _ => none
  | (k, v) :: r, f => if k = f then some v else findVal r f

/-- `item[k]`: a missing property reads as `undefined`. -/
def getV (r : Record) (f : String) : Val := (findVal r f).getD Val.undef

/-- `item.hasOwnProperty(k)`. -/
def hasField (r : Record) (f : String) : Bool := (findVal r f).isSome

/-- `item[k] = v`: update in place if present (JS keeps the original key slot),
otherwise append the new property at the end. -/
def setVal : Record → String → Val → Record
  | [], k, v => [(k, v)]
  | (k', v') :: r, k, v =>
      if k' = k then (k', v) :: r else (k', v') :: setVal r k v

/-- `delete item[k]`. -/
def delVal (r : Record) (k : String) : Record := r.filter (fun p => p.1 ≠ k)

/-- `Object.keys(item)`. -/
def keysOf (r : Record) : List String := r.map Prod.fst

/-- JS number-to-string used during key joining.  Integral rationals print the
way JS prints integral doubles; non-integral values get a num/den rendering
(JS prints decimals for doubles; no claim in this development depends on the
textual form of a non-integral key value). -/
def ratStr (q : Rat) : String :=
  if q.den = 1 then toString q.num else toString q.num ++ "/" ++ toString q.den

mutual

/-- Element stringification of `Array.prototype.join`: `undefined` becomes the
empty string, arrays are recursively comma-joined, other values use `String()`.
Used for the composite grouping key `groupingKeys.map(k => item[k]).join('-')`. -/
def joinedStr : Val → String
  | .str s => s
  | .num q => ratStr q
  | .undef => ""
  | .arr l => joinedList l

/-- Comma-join of array elements, as `Array.prototype.toString`. -/
def joinedList : List Val → String
  | [] => ""
  | [v] => joinedStr v
  | v :: rest => joinedStr v ++ "," ++ joinedList rest

end

/-- The composite grouping key of a record:
`groupingKeys.map(key => item[key]).join('-')`. -/
def compositeOf (ks : List String) (r : Record) : String :=
  String.intercalate "-" (ks.map (fun k => joinedStr (getV r k)))

/-- `groupingKeys.every(key => item.hasOwnProperty(key))`. -/
def hasAll (r : Record) (ks : List String) : Bool := ks.all (fun k => hasField r k)

/-- The aggregated (non-grouping) property names of a record, in key order:
`Object.keys(item).filter(key => !groupingKeys.includes(key))`. -/
def aggrOf (ks : List String) (r : Record) : List String :=
  (keysOf r).filter (fun k => ¬ ks.contains k)

/-- `aggregatedProperties.forEach(p => existingEntry[p].push(item[p]))`:
pushing onto a non-array value (including `undefined` for a property the entry
never initialized, or the internal string `entry.key`) is a TypeError. -/
def pushProps (item : Record) (aggr : List String) (e : Record) :
    Except JsError Record :=
  aggr.foldlM
    (fun e p =>
      match getV e p with
      | .arr l => .ok (setVal e p (.arr (l ++ [getV item p])))
      | _ => .error .typeError)
    e

/-- Building a fresh group entry from the first record of a group: grouping-key
fields as scalars, aggregated fields as singleton arrays, then the internal
routing property `key` (overwriting any user field of that name). -/
def buildEntry (ks : List String) (aggr : List String) (item : Record)
    (c : String) : Record :=
  let e1 := ks.foldl (fun e k => setVal e k (getV item k)) []
  let e2 := aggr.foldl (fun e p => setVal e p (.arr [getV item p])) e1
  setVal e2 "key" (.str c)

/-- Route a record into the accumulated entry list: update the first entry whose
`key` property strictly equals the composite key, else append a new entry. -/
def insertItem (ks : List String) (item : Record) (c : String)
    (aggr : List String) : List Record → Except JsError (List Record)
  | [] => .ok [buildEntry ks aggr item c]
  | e :: rest =>
      if Val.beq (getV e "key") (.str c) then do
        let e2 ← pushProps item aggr e
        .ok (e2 :: rest)
      else do
        let rest2 ← insertItem ks item c aggr rest
        .ok (e :: rest2)

/-- One step of the `reduce` in `group`: records lacking a grouping key are
skipped silently. -/
def step (ks : List String) (acc : List Record) (item : Record) :
    Except JsError (List Record) :=
  if hasAll item ks then
    insertItem ks item (compositeOf ks item) (aggrOf ks item) acc
  else .ok acc

/-- The `reduce` of `group`, before the final `delete item.key` pass. -/
def groupCore (ks : List String) (rs : List Record) :
    Except JsError (List Record) :=
  rs.foldlM (step ks) []

/-- `group(array, groupingKeys)` from src/index.js. -/
def group (rs : List Record) (ks : List String) :
    Except JsError (List Record) :=
  (groupCore ks rs).map (fun l => l.map (fun e => delVal e "key"))

/-- The per-record body of `removeExtraProperties`: keep only the allowed
properties, in the record's own key order. -/
def projOne (allowed : List String) (item : Record) : Record :=
  ((keysOf item).filter (fun k => allowed.contains k)).foldl
    (fun obj k => setVal obj k (getV item k)) []

/-- `removeExtraProperties(data, allowedProperties)` from src/index.js. -/
def removeExtraProperties (rs : List Record) (allowed : List String) :
    List Record :=
  rs.map (projOne allowed)

/-- `.length` as used by the `for` bound in `ungroup`: arrays and strings have a
length; a number's `.length` is `undefined`, making `i < undefined` false (zero
iterations); reading `.length` of `undefined` is a TypeError. -/
def jsLen : Val → Except JsError Nat
  | .arr l => .ok l.length
  | .str s => .ok s.length
  | .num _ => .ok 0
  | .undef => .error .typeError

/-- `item[property][i]`: array indexing (out of bounds reads `undefined`),
string indexing yields one-character strings, indexing a number reads
`undefined`, indexing `undefined` is a TypeError. -/
def indexVal : Val → Nat → Except JsError Val
  | .arr l, i => .ok (l.getD i .undef)
  | .str s, i => .ok ((s.toList.get? i).elim Val.undef (fun ch => .str (String.singleton ch)))
  | .num _, _ => .ok .undef
  | .undef, _ => .error .typeError

/-- The key-field part of each flat record rebuilt by `ungroup`: the
grouping-key scalars are copied from the entry. -/
def ungroupBase (ks : List String) (item : Record) : Record :=
  ks.foldl (fun m k => setVal m k (getV item k)) []

/-- Expansion of a single grouped entry inside `ungroup`: the iteration count is
the `.length` of `item[aggregatedProperties[0]]`; with no aggregated property,
JS evaluates `item[undefined]`, i.e. the property literally named `undefined`. -/
def ungroupOne (ks : List String) (item : Record) :
    Except JsError (List Record) := do
  let aggr := aggrOf ks item
  let bound ← jsLen (getV item (aggr.headD "undefined"))
  (List.range bound).mapM (fun i =>
    aggr.foldlM
      (fun m p => do
        let v ← indexVal (getV item p) i
        .ok (setVal m p v))
      (ungroupBase ks item))

/-- `ungroup(array, groupingKeys)` from src/index.js. -/
def ungroup (gs : List Record) (ks : List String) :
    Except JsError (List Record) := do
  let ll ← gs.mapM (ungroupOne ks)
  .ok ll.flatten

/-- `linearRegressionPredictor(xValues, yValues)` from src/index.js, on numeric
arrays (the only case the claims exercise).  The sums are the literal `reduce`
folds of the source. -/
def linearRegressionPredictor (xs ys : List Rat) :
    Except JsError (Rat → Rat) :=
  if xs.length ≠ ys.length ∨ xs.length = 0 then .error .invalidInput
  else if xs.length = 1 then .error .insufficientData
  else
    let n : Rat := (xs.length : Rat)
    let xMean := rDiv (xs.foldl rAdd 0) n
    let yMean := rDiv (ys.foldl rAdd 0) n
    let numerator :=
      (xs.zip ys).foldl (fun s p => rAdd s (rMul (rSub p.1 xMean) (rSub p.2 yMean))) 0
    let denominator := xs.foldl (fun s x => rAdd s (rPow2 (rSub x xMean))) 0
    let slope := rDiv numerator denominator
    let intercept := rSub yMean (rMul slope xMean)
    .ok (fun newX => rAdd (rMul slope newX) intercept)

/-- Numeric projection of a `Val`; JS instead coerces (producing NaN chains) —
no claim exercises a non-numeric x/y sequence. -/
def toNum? : Val → Option Rat
  | .num q => some q
  | _ => none

/-- Numeric projection of an array of values. -/
def toNums (l : List Val) : Option (List Rat) := l.mapM toNum?

/-- The filter callback `item => item[xKey].length > 1` of `batchPredict`:
reading `.length` of `undefined` (no such property on the entry) throws. -/
def lenGT1 : Val → Except JsError Bool
  | .undef => .error .typeError
  | .arr l => .ok (decide (1 < l.length))
  | .str s => .ok (decide (1 < s.length))
  | .num _ => .ok false

/-- `groupedData.filter(item => item[xKey].length > 1)`, left to right. -/
def filterBig (xKey : String) : List Record → Except JsError (List Record)
  | [] => .ok []
  | g :: rest => do
      let b ← lenGT1 (getV g xKey)
      let r ← filterBig xKey rest
      .ok (if b then g :: r else r)

/-- The per-group body of `batchPredict` in src/index.js: fit the predictor,
then overwrite the entry's x sequence with `newXs` and its y sequence with the
predictions.  Non-array or non-numeric x/y sequences are mapped to `typeError`
(JS would instead coerce, yielding NaN results; no claim exercises that). -/
def predictEntry (xKey yKey : String) (newXs : List Rat) (item : Record) :
    Except JsError Record :=
  match getV item xKey, getV item yKey with
  | .arr xsv, .arr ysv =>
      match toNums xsv, toNums ysv with
      | some xq, some yq => do
          let f ← linearRegressionPredictor xq yq
          let item1 := setVal item xKey (.arr (newXs.map Val.num))
          .ok (setVal item1 yKey (.arr (newXs.map (fun t => .num (f t)))))
      | _, _ => .error .typeError
  | _, _ => .error .typeError

/-- `batchPredict(data, groupingKeys, xKey, yKey, newXs)` from src/index.js. -/
def batchPredict (data : List Record) (ks : List String) (xKey yKey : String)
    (newXs : List Rat) : Except JsError (List Record) := do
  let allowed := ks ++ [xKey, yKey]
  let data1 := removeExtraProperties data allowed
  let gs ← group data1 ks
  let big ← filterBig xKey gs
  let predicted ← big.mapM (predictEntry xKey yKey newXs)
  ungroup predicted ks

/-- Modelled from the spec: the external statistics utility
(`linearRegression` of the simple-statistics package, not part of this
repository), which section 6 of the spec requires to "match the formula in
section 4.3 exactly": slope = covariance sum over variance sum of the x values,
intercept = yMean - slope * xMean.  Returns (slope, intercept). -/
def linearRegressionLib (ps : List (Rat × Rat)) : Rat × Rat :=
  let n : Rat := (ps.length : Rat)
  let xMean := rDiv ((ps.map Prod.fst).foldl rAdd 0) n
  let yMean := rDiv ((ps.map Prod.snd).foldl rAdd 0) n
  let numerator :=
    ps.foldl (fun s p => rAdd s (rMul (rSub p.1 xMean) (rSub p.2 yMean))) 0
  let denominator := ps.foldl (fun s p => rAdd s (rPow2 (rSub p.1 xMean))) 0
  let slope := rDiv numerator denominator
  (slope, rSub yMean (rMul slope xMean))

/-- Modelled from the spec: `linearRegressionLine` of simple-statistics, the
line function of a fitted (slope, intercept). -/
def linearRegressionLine (mb : Rat × Rat) : Rat → Rat :=
  fun t => rAdd (rMul mb.1 t) mb.2

/-- The per-group body of `batchPredict` in src/unnamed/part_000: zip the x
sequence with the y sequence by index (`item[xKey].map((x, i) => [x,
item[yKey][i]])`), fit via the statistics utility, and overwrite only the y
sequence — the x sequence is left as the original observations. -/
def predictEntryLib (xKey yKey : String) (newXs : List Rat) (item : Record) :
    Except JsError Record :=
  match getV item xKey, getV item yKey with
  | .arr xsv, .arr ysv =>
      let pairs := xsv.enum.map (fun p => (p.2, ysv.getD p.1 .undef))
      match pairs.mapM (fun p => do
          let a ← toNum? p.1
          let b ← toNum? p.2
          some (a, b)) with
      | some ps =>
          let f := linearRegressionLine (linearRegressionLib ps)
          .ok (setVal item yKey (.arr (newXs.map (fun t => .num (f t)))))
      | none => .error .typeError
  | _, _ => .error .typeError

/-- `batchPredict(data, groupingKeys, xKey, yKey, newXs)` from
src/unnamed/part_000 (identical pipeline to src/index.js except the per-group
prediction body). -/
def batchPredictLib (data : List Record) (ks : List String)
    (xKey yKey : String) (newXs : List Rat) : Except JsError (List Record) := do
  let allowed := ks ++ [xKey, yKey]
  let data1 := removeExtraProperties data allowed
  let gs ← group data1 ks
  let big ← filterBig xKey gs
  let predicted ← big.mapM (predictEntryLib xKey yKey newXs)
  ungroup predicted ks

/-- Lexicographic comparison of character lists by code point (a
kernel-computable total order used only to canonicalize field order). -/
def lexLe : List Char → List Char → Bool
  | [], _ => true
  | _ :: _, [] => false
  | a :: as, b :: bs =>
      if a.toNat < b.toNat then true
      else if b.toNat < a.toNat then false
      else lexLe as bs

/-- Total order on property names used to canonicalize records. -/
def strLeB (a b : String) : Bool := lexLe a.data b.data

/-- The property-name order as a binary relation. -/
def strLe (a b : String) : Prop := strLeB a b = true

instance : DecidableRel strLe := fun a b => instDecidableEqBool (strLeB a b) true

/-- Canonical form of a record: properties sorted by name.  Two records with
duplicate-free key lists, the same key set and the same lookups normalize
identically; used to compare records "up to field order". -/
def normalize (r : Record) : Record :=
  (List.insertionSort strLe (keysOf r)).map (fun k => (k, getV r k))

/-- A row of the README two-branch dataset. -/
def exampleRecord (b : String) (p s : Rat) : Record :=
  [("branch", .str b), ("period", .num p), ("sales", .num s)]

/-- The README two-branch dataset (branch A: periods 1..6, sales 2,4,...,12;
branch B: periods 2,4,6,8,9,10, sales 3,5,7,12,14,16). -/
def exampleData : List Record :=
  [exampleRecord "A" 1 2, exampleRecord "A" 2 4, exampleRecord "A" 3 6,
   exampleRecord "A" 4 8, exampleRecord "A" 5 10, exampleRecord "A" 6 12,
   exampleRecord "B" 2 3, exampleRecord "B" 4 5, exampleRecord "B" 6 7,
   exampleRecord "B" 8 12, exampleRecord "B" 9 14, exampleRecord "B" 10 16]

/-- What `batchPredict` actually returns on the README dataset with
newXs = [7, 8]: branch A predictions are exact (14, 16); branch B predictions
are the OLS values 982/95 = 10.336... and 1141/95 = 12.010... . -/
def exampleOut : List Record :=
  [exampleRecord "A" 7 14, exampleRecord "A" 8 16,
   exampleRecord "B" 7 (mkRat 982 95), exampleRecord "B" 8 (mkRat 1141 95)]

/-- A minimal perfectly-collinear two-record dataset used to compare the two
batchPredict implementations. -/
def eqvData : List Record :=
  [[("k", .str "A"), ("x", .num 1), ("y", .num 1)],
   [("k", .str "A"), ("x", .num 2), ("y", .num 2)]]

/-- Dataset whose second record lacks the dependent field: its group survives
the size filter with a longer x sequence than y sequence. -/
def missingYData : List Record :=
  [[("k", .str "A"), ("x", .num 1), ("y", .num 1)],
   [("k", .str "A"), ("x", .num 2)]]

/-- Two records with distinct grouping-key values whose composite keys
collide: join("-") of ("x-", "y") and of ("x", "-y") are both "x--y". -/
def collideData : List Record :=
  [[("a", .str "x-"), ("b", .str "y"), ("v", .num 1)],
   [("a", .str "x"), ("b", .str "-y"), ("v", .num 2)]]

/-- Arithmetic mean, as the claim states it. -/
def meanSpec (l : List Rat) : Rat := l.sum / l.length

/-- OLS slope by the closed formula of the claim:
sum of (x - xbar) * (y - ybar) over sum of (x - xbar)^2. -/
def slopeSpec (xs ys : List Rat) : Rat :=
  ((xs.zip ys).map (fun p => (p.1 - meanSpec xs) * (p.2 - meanSpec ys))).sum /
    (xs.map (fun x => (x - meanSpec xs) ^ 2)).sum

/-- OLS intercept by the closed formula of the claim: ybar - slope * xbar. -/
def interceptSpec (xs ys : List Rat) : Rat :=
  meanSpec ys - slopeSpec xs ys * meanSpec xs

/-- A JS heap for the frame (no-mutation) claim: records are objects living at
addresses, and the store-passing variants below render exactly which object
each statement of batchPredict reads or writes. -/
abbrev Store := List Record

/-- Dereference an object address. -/
def readH (s : Store) (a : Nat) : Record := s.getD a []

/-- Overwrite the object at an address (a JS property assignment mutates the
object in place). -/
def writeH (s : Store) (a : Nat) (r : Record) : Store := s.set a r

/-- Allocate a fresh object (a JS object literal). -/
def allocH (s : Store) (r : Record) : Store × Nat := (s ++ [r], s.length)

/-- Allocate a list of fresh objects in order. -/
def allocAllH : Store → List Record → Store × List Nat
  | s, [] => (s, [])
  | s, r :: rest =>
      let p1 := allocH s r
      let p2 := allocAllH p1.1 rest
      (p2.1, p1.2 :: p2.2)

/-- Heap `removeExtraProperties`: each record of the input array is read and a
fresh filtered object is allocated; the input objects are only read. -/
def removeExtraPropertiesH (allowed : List String) : Store → List Nat → Store × List Nat
  | s, [] => (s, [])
  | s, a :: rest =>
      let p1 := allocH s (projOne allowed (readH s a))
      let p2 := removeExtraPropertiesH allowed p1.1 rest
      (p2.1, p1.2 :: p2.2)

/-- Heap rendering of `result.find(entry => entry.key === key)`: the address of
the first accumulated entry whose `key` property is the composite key. -/
def findEntryH (s : Store) (c : String) : List Nat → Option Nat
  | [] => none
  | a :: rest =>
      if Val.beq (getV (readH s a) "key") (.str c) then some a
      else findEntryH s c rest

/-- Heap rendering of the push loop: each push mutates the found entry object
in place. -/
def pushPropsH (item : Record) (ea : Nat) : List String → Store →
    Store × Except JsError Unit
  | [], s => (s, .ok ())
  | p :: rest, s =>
      match getV (readH s ea) p with
      | .arr l =>
          pushPropsH item ea rest
            (writeH s ea (setVal (readH s ea) p (.arr (l ++ [getV item p]))))
      | _ => (s, .error .typeError)

/-- Heap rendering of one step of `group`'s reduce: a matching entry is
mutated in place, otherwise a fresh entry object is allocated. -/
def stepH (ks : List String) (s : Store) (acc : List Nat) (a : Nat) :
    Store × Except JsError (List Nat) :=
  let item := readH s a
  if hasAll item ks then
    let c := compositeOf ks item
    let aggr := aggrOf ks item
    match findEntryH s c acc with
    | some ea =>
        let p1 := pushPropsH item ea aggr s
        (p1.1, p1.2.map (fun _ => acc))
    | none =>
        let p1 := allocH s (buildEntry ks aggr item c)
        (p1.1, .ok (acc ++ [p1.2]))
  else (s, .ok acc)

/-- Heap rendering of `group`'s reduce over the record addresses. -/
def groupCoreH (ks : List String) : Store → List Nat → List Nat →
    Store × Except JsError (List Nat)
  | s, acc, [] => (s, .ok acc)
  | s, acc, a :: rest =>
      match stepH ks s acc a with
      | (s1, .ok acc1) => groupCoreH ks s1 acc1 rest
      | (s1, .error er) => (s1, .error er)

/-- Heap rendering of the final `delete item.key` pass: each entry object is
mutated in place. -/
def delKeysH : Store → List Nat → Store
  | s, [] => s
  | s, a :: rest => delKeysH (writeH s a (delVal (readH s a) "key")) rest

/-- Heap `group`. -/
def groupH (ks : List String) (s : Store) (addrs : List Nat) :
    Store × Except JsError (List Nat) :=
  match groupCoreH ks s [] addrs with
  | (s1, .ok acc) => (delKeysH s1 acc, .ok acc)
  | e => e

/-- Heap rendering of the size filter (reads only). -/
def filterBigH (x : String) (s : Store) : List Nat → Except JsError (List Nat)
  | [] => .ok []
  | a :: rest => do
      let b ← lenGT1 (getV (readH s a) x)
      let r ← filterBigH x s rest
      .ok (if b then a :: r else r)

/-- Heap rendering of the per-group prediction body: the two assignments
`item[xKey] = newXs` and `item[yKey] = ...` mutate the entry object. -/
def predictEntryH (x y : String) (newXs : List Rat) (s : Store) (ea : Nat) :
    Store × Except JsError Unit :=
  let item := readH s ea
  match getV item x, getV item y with
  | .arr xsv, .arr ysv =>
      match toNums xsv, toNums ysv with
      | some xq, some yq =>
          match linearRegressionPredictor xq yq with
          | .ok f =>
              let s1 := writeH s ea (setVal item x (.arr (newXs.map Val.num)))
              let item1 := readH s1 ea
              (writeH s1 ea
                (setVal item1 y (.arr (newXs.map (fun t => .num (f t))))),
               .ok ())
          | .error er => (s, .error er)
      | _, _ => (s, .error .typeError)
  | _, _ => (s, .error .typeError)

/-- Heap rendering of the prediction map over the surviving groups. -/
def predictAllH (x y : String) (newXs : List Rat) : Store → List Nat →
    Store × Except JsError Unit
  | s, [] => (s, .ok ())
  | s, a :: rest =>
      match predictEntryH x y newXs s a with
      | (s1, .ok _) => predictAllH x y newXs s1 rest
      | e => e

/-- Heap `ungroup`: each rebuilt flat record is a fresh object; the grouped
entries are only read. -/
def ungroupH (ks : List String) : Store → List Nat →
    Store × Except JsError (List Nat)
  | s, [] => (s, .ok [])
  | s, a :: rest =>
      match ungroupOne ks (readH s a) with
      | .ok outs =>
          let p1 := allocAllH s outs
          match ungroupH ks p1.1 rest with
          | (s2, .ok as2) => (s2, .ok (p1.2 ++ as2))
          | e => e
      | .error er => (s, .error er)

/-- Heap `batchPredict`: the store-passing composition of the phases above. -/
def batchPredictH (s : Store) (addrs : List Nat) (ks : List String)
    (x y : String) (newXs : List Rat) : Store × Except JsError (List Nat) :=
  let p1 := removeExtraPropertiesH (ks ++ [x, y]) s addrs
  match groupH ks p1.1 p1.2 with
  | (s2, .ok gsad) =>
      match filterBigH x s2 gsad with
      | .ok big =>
          match predictAllH x y newXs s2 big with
          | (s3, .ok _) => ungroupH ks s3 big
          | (s3, .error er) => (s3, .error er)
      | .error er => (s2, .error er)
  | e => e

/-- Store evolution that does not touch the first `n` objects: the store only
grows and every address below `n` still holds the same object. -/
structure FrameOn (n : Nat) (s s2 : Store) : Prop where
  len : s.length ≤ s2.length
  pres : ∀ a < n, s2[a]? = s[a]?

/-- The member records of the group with composite key `c`: the records seen so
far that carry every grouping key and whose composite key is `c`, in encounter
order. -/
def memsOf (ks : List String) (c : String) (processed : List Record) :
    List Record :=
  processed.filter (fun r => hasAll r ks && (compositeOf ks r == c))

/-- The composite key stored in a group entry's internal `key` property. -/
def keyStrOf (e : Record) : String :=
  match getV e "key" with
  | .str s => s
  | _ => ""

/-- The array stored in a record field (empty when the field is not an array). -/
def arrVals (e : Record) (p : String) : List Val :=
  match findVal e p with
  | some (.arr l) => l
  | _ => []

/-- The flat record that `ungroup` rebuilds from entry `e` at member index
`i`: grouping-key scalars copied, then each aggregated field's i-th element. -/
def reconOf (ks : List String) (e : Record) (i : Nat) : Record :=
  (aggrOf ks e).foldl
    (fun m p => setVal m p ((arrVals e p).getD i .undef)) (ungroupBase ks e)

/-- Invariant of one accumulated `group` entry with composite key `c` after
the records `processed` have been folded: its fields are the common field set
plus the routing key, its key fields hold the first member's values, and every
non-key field holds the members' values in order. -/
structure EntryInv (ks F : List String) (processed : List Record) (c : String)
    (e : Record) : Prop where
  fields : ∀ f, hasField e f = true ↔ (f ∈ F ∨ f = "key")
  nodup : (keysOf e).Nodup
  keyv : findVal e "key" = some (.str c)
  nonemp : memsOf ks c processed ≠ []
  keyvals : ∀ k ∈ ks,
    findVal e k = some (getV ((memsOf ks c processed).headD []) k)
  aggrvals : ∀ p, p ∈ F → p ∉ ks →
    findVal e p = some (.arr ((memsOf ks c processed).map (fun r => getV r p)))

/-- Invariant of the whole accumulator of `group`'s reduce: every entry
satisfies `EntryInv` for some composite key, entries carry pairwise distinct
routing keys, and every processed record that has all grouping keys is covered
by an entry with its composite key. -/
structure GroupInv (ks F : List String) (processed acc : List Record) : Prop where
  entries : ∀ e ∈ acc, ∃ c, EntryInv ks F processed c e
  distinct : List.Pairwise (fun e1 e2 => getV e1 "key" ≠ getV e2 "key") acc
  covers : ∀ r ∈ processed, hasAll r ks = true →
    ∃ e ∈ acc, getV e "key" = .str (compositeOf ks r)

theorem rAdd_eq (a b : Rat) : rAdd a b = a + b := (Rat.add_def' a b).symm

theorem rSub_eq (a b : Rat) : rSub a b = a - b := (Rat.sub_def' a b).symm

theorem rMul_eq (a b : Rat) : rMul a b = a * b := (Rat.mul_eq_mkRat a b).symm

theorem rDiv_eq (a b : Rat) : rDiv a b = a / b := (Rat.div_def' a b).symm

theorem rPow2_eq (a : Rat) : rPow2 a = a ^ 2 := by
  rw [rPow2, rMul_eq, sq]

theorem foldl_rAdd_map {α : Type} (g : α → Rat) (l : List α) (init : Rat) :
    l.foldl (fun s x => rAdd s (g x)) init = init + (l.map g).sum := by
  induction l generalizing init with
  | nil => simp
  | cons a t ih => rw [List.foldl_cons, ih, rAdd_eq, List.map_cons, List.sum_cons, add_assoc]

theorem foldl_rAdd_sum (l : List Rat) : l.foldl rAdd 0 = l.sum := by
  have h : l.foldl rAdd 0 = l.foldl (fun s x => rAdd s (id x)) 0 := rfl
  rw [h, foldl_rAdd_map, List.map_id, zero_add]

theorem foldl_add_map {α : Type} (g : α → Rat) (l : List α) (init : Rat) :
    l.foldl (fun s x => s + g x) init = init + (l.map g).sum := by
  induction l generalizing init with
  | nil => simp
  | cons a t ih => rw [List.foldl_cons, ih, List.map_cons, List.sum_cons, add_assoc]

theorem findVal_delVal (r : Record) (k : String) : findVal (delVal r k) k = none := by
  induction r with
  | nil => rfl
  | cons p t ih =>
      obtain ⟨a, v⟩ := p
      by_cases h : a = k
      · simpa [delVal, List.filter_cons, h] using ih
      · simpa [delVal, List.filter_cons, h, findVal] using ih

/-- Evaluation of the Regressor in the non-error case: the returned closure is
the line with the closed-form OLS slope and intercept. -/
theorem lRP_eq_ok (xs ys : List Rat) (hlen : xs.length = ys.length)
    (h2 : 2 ≤ xs.length) :
    linearRegressionPredictor xs ys =
      .ok (fun t => slopeSpec xs ys * t + interceptSpec xs ys) := by
  have h0 : ¬(xs.length ≠ ys.length ∨ xs.length = 0) := by omega
  have h1 : xs.length ≠ 1 := by omega
  unfold linearRegressionPredictor
  rw [if_neg h0, if_neg h1]
  apply congrArg Except.ok
  funext t
  simp only [rAdd_eq, rSub_eq, rMul_eq, rDiv_eq, rPow2_eq]
  rw [show (List.foldl rAdd 0 xs) = xs.sum from foldl_rAdd_sum xs,
    show (List.foldl rAdd 0 ys) = ys.sum from foldl_rAdd_sum ys]
  rw [foldl_add_map (fun p : Rat × Rat =>
        (p.1 - xs.sum / (xs.length : Rat)) * (p.2 - ys.sum / (xs.length : Rat)))
      (xs.zip ys) 0,
    foldl_add_map (fun x : Rat => (x - xs.sum / (xs.length : Rat)) ^ 2) xs 0]
  simp only [zero_add, slopeSpec, interceptSpec, meanSpec, ← hlen]

/-- Claim C4: the Regressor fails with InvalidInput exactly when the two input
sequences have different lengths or length zero, fails with InsufficientData
exactly when exactly one pair is supplied, and in every other case (two or more
pairs of equal length, x-distinctness not validated) returns a predictor. -/
theorem C4_regressor_error_conditions (xs ys : List Rat) :
    (linearRegressionPredictor xs ys = .error .invalidInput ↔
      (xs.length ≠ ys.length ∨ xs.length = 0)) ∧
    (linearRegressionPredictor xs ys = .error .insufficientData ↔
      (xs.length = ys.length ∧ xs.length = 1)) ∧
    ((∃ f, linearRegressionPredictor xs ys = .ok f) ↔
      (xs.length = ys.length ∧ 2 ≤ xs.length)) := by
  by_cases hc : xs.length ≠ ys.length ∨ xs.length = 0
  · have he : linearRegressionPredictor xs ys = .error .invalidInput := by
      unfold linearRegressionPredictor; rw [if_pos hc]
    refine ⟨?_, ?_, ?_⟩
    · rw [he]; exact ⟨fun _ => hc, fun _ => rfl⟩
    · rw [he]
      constructor
      · intro h; exact absurd (Except.error.inj h) (by intro q; cases q)
      · rintro ⟨h1, h2⟩; exfalso; omega
    · rw [he]
      constructor
      · rintro ⟨f, hf⟩; cases hf
      · rintro ⟨h1, h2⟩; exfalso; omega
  · have hlen : xs.length = ys.length := by tauto
    have hnz : xs.length ≠ 0 := by tauto
    by_cases h1 : xs.length = 1
    · have he : linearRegressionPredictor xs ys = .error .insufficientData := by
        unfold linearRegressionPredictor; rw [if_neg hc, if_pos h1]
      refine ⟨?_, ?_, ?_⟩
      · rw [he]
        constructor
        · intro h; exact absurd (Except.error.inj h) (by intro q; cases q)
        · intro h; exact absurd h hc
      · rw [he]; exact ⟨fun _ => ⟨hlen, h1⟩, fun _ => rfl⟩
      · rw [he]
        constructor
        · rintro ⟨f, hf⟩; cases hf
        · rintro ⟨_, h2⟩; exfalso; omega
    · have he : linearRegressionPredictor xs ys =
          .ok (fun t => slopeSpec xs ys * t + interceptSpec xs ys) :=
        lRP_eq_ok xs ys hlen (by omega)
      refine ⟨?_, ?_, ?_⟩
      · rw [he]
        constructor
        · intro h; cases h
        · intro h; exact absurd h hc
      · rw [he]
        constructor
        · intro h; cases h
        · rintro ⟨_, h2⟩; exact absurd h2 h1
      · rw [he]
        exact ⟨fun _ => ⟨hlen, by omega⟩, fun _ => ⟨_, rfl⟩⟩

/-- Claim C2: for equal-length numeric sequences with at least two pairs,
`linearRegressionPredictor` returns the function newX maps to
slope * newX + intercept with the standard OLS closed-form slope and
intercept. -/
theorem C2_regressor_formula (xs ys : List Rat) (hlen : xs.length = ys.length)
    (h2 : 2 ≤ xs.length) :
    ∃ f, linearRegressionPredictor xs ys = .ok f ∧
      ∀ t, f t = slopeSpec xs ys * t + interceptSpec xs ys :=
  ⟨_, lRP_eq_ok xs ys hlen h2, fun _ => rfl⟩

/-- Witness for C2 at xs = [1,2,3], ys = [2,4,6]. -/
theorem C2_witness :
    ∃ f, linearRegressionPredictor [1, 2, 3] [2, 4, 6] = .ok f ∧
      ∀ t, f t = slopeSpec [1, 2, 3] [2, 4, 6] * t +
        interceptSpec [1, 2, 3] [2, 4, 6] :=
  C2_regressor_formula [1, 2, 3] [2, 4, 6] rfl (by decide)

set_option maxRecDepth 100000 in
/-- Claim C1 fails as stated: `batchPredict` on the README dataset does return
four records in group-then-newX order with branch A sales 14 and 16, but the
branch B OLS predictions are 982/95 = 10.336... and 1141/95 = 12.010..., not
"approximately 9 and 11" (they exceed 10 and 12 respectively, so they are not
within 1 of the stated values). -/
theorem C1_counterexample :
    batchPredict exampleData ["branch"] "period" "sales" [7, 8] = .ok exampleOut ∧
    getV (exampleOut.getD 2 []) "sales" = .num (mkRat 982 95) ∧
    getV (exampleOut.getD 3 []) "sales" = .num (mkRat 1141 95) ∧
    (10 : Rat) < mkRat 982 95 ∧ (12 : Rat) < mkRat 1141 95 := by
  refine ⟨by decide, by decide, by decide, ?_, ?_⟩ <;> decide

set_option maxRecDepth 100000 in
/-- Claim C1 amended: on the README two-branch dataset,
`batchPredict(records, ["branch"], "period", "sales", [7,8])` returns exactly
four records in group-then-newX order — branch A periods 7, 8 with sales
exactly 14 and 16, then branch B periods 7, 8 with sales equal to the OLS
predictions 982/95 (approximately 10.34) and 1141/95 (approximately 12.01). -/
theorem C1_amended :
    batchPredict exampleData ["branch"] "period" "sales" [7, 8] =
      .ok exampleOut := by
  decide

set_option maxRecDepth 100000 in
/-- Claim C3: the two batchPredict implementations diverge, because
src/unnamed/part_000 never replaces the group's independent sequence with
newXs (contradicting its own documentation example, whose output lists the
new periods 7 and 8).  On a two-record collinear dataset with newXs = [3],
src/index.js yields one record with x = 3, while part_000 yields two records
keeping the original x values 1, 2, the second with an undefined y. -/
theorem C3_divergence :
    batchPredict eqvData ["k"] "x" "y" [3] =
      .ok [[("k", .str "A"), ("x", .num 3), ("y", .num 3)]] ∧
    batchPredictLib eqvData ["k"] "x" "y" [3] =
      .ok [[("k", .str "A"), ("x", .num 1), ("y", .num 3)],
           [("k", .str "A"), ("x", .num 2), ("y", .undef)]] ∧
    batchPredict eqvData ["k"] "x" "y" [3] ≠
      batchPredictLib eqvData ["k"] "x" "y" [3] := by
  refine ⟨by decide, by decide, by decide⟩

/-- Claim C10: `ungroup` fails (TypeError) on a structurally valid grouped
entry whose every field is a grouping key: the member count is read from the
length of the first non-key field, which does not exist. -/
theorem C10_ungroup_keys_only_fails :
    ungroup [[("a", Val.str "A")]] ["a"] = .error .typeError := by
  decide

/-- Claim C7: a record lacking at least one grouping-key field contributes
nothing to `group` — the output is exactly as if the record were absent. -/
theorem C7_group_skips (rs1 rs2 : List Record) (r : Record) (ks : List String)
    (h : hasAll r ks = false) :
    group (rs1 ++ r :: rs2) ks = group (rs1 ++ rs2) ks := by
  unfold group groupCore
  rw [List.foldlM_append, List.foldlM_append]
  have hstep : ∀ acc, step ks acc r = .ok acc := by
    intro acc; unfold step; rw [h]; rfl
  have hcons : ∀ init, List.foldlM (step ks) init (r :: rs2) =
      List.foldlM (step ks) init rs2 := by
    intro init; rw [List.foldlM_cons, hstep init]; rfl
  simp only [hcons]

/-- Witness for C7: dropping the keyless middle record leaves `group`
unchanged. -/
theorem C7_witness :
    hasAll [("v", Val.num 5)] ["a"] = false ∧
    group [[("a", Val.str "A"), ("v", Val.num 1)], [("v", Val.num 5)],
           [("a", Val.str "A"), ("v", Val.num 2)]] ["a"] =
      group [[("a", Val.str "A"), ("v", Val.num 1)],
             [("a", Val.str "A"), ("v", Val.num 2)]] ["a"] :=
  ⟨by decide,
    C7_group_skips [[("a", Val.str "A"), ("v", Val.num 1)]]
      [[("a", Val.str "A"), ("v", Val.num 2)]] [("v", Val.num 5)] ["a"]
      (by decide)⟩

/-- Claim C9: no entry returned by `group` contains a field named "key" — the
internal composite routing key is deleted before return, and a user field
named "key" is overwritten by it and then deleted with it. -/
theorem C9_no_key_field (rs : List Record) (ks : List String)
    (out : List Record) (h : group rs ks = .ok out) :
    ∀ e ∈ out, hasField e "key" = false := by
  unfold group at h
  cases hg : groupCore ks rs with
  | error err => rw [hg] at h; cases h
  | ok core =>
      rw [hg] at h
      cases h
      intro e he
      obtain ⟨e0, _, rfl⟩ := List.mem_map.1 he
      simp [hasField, findVal_delVal]

/-- Witness for C9: grouping a record that carries a user field named "key"
yields an entry without it (the user's "key" value is dropped). -/
theorem C9_witness :
    group [[("a", Val.str "A"), ("key", Val.num 7)]] ["a"] =
        .ok [[("a", Val.str "A")]] ∧
      hasField [("a", Val.str "A")] "key" = false :=
  ⟨by decide,
   C9_no_key_field [[("a", Val.str "A"), ("key", Val.num 7)]] ["a"]
     [[("a", Val.str "A")]] (by decide) [("a", Val.str "A")]
     (List.mem_cons_self _ _)⟩

theorem findVal_setVal_self (r : Record) (k : String) (v : Val) :
    findVal (setVal r k v) k = some v := by
  induction r with
  | nil => simp [setVal, findVal]
  | cons p t ih =>
      obtain ⟨a, w⟩ := p
      by_cases h : a = k
      · simp [setVal, h, findVal]
      · simp [setVal, h, findVal, ih]

theorem findVal_setVal_ne (r : Record) (k f : String) (v : Val) (h : f ≠ k) :
    findVal (setVal r k v) f = findVal r f := by
  induction r with
  | nil => simp [setVal, findVal, Ne.symm h]
  | cons p t ih =>
      obtain ⟨a, w⟩ := p
      by_cases ha : a = k
      · subst ha
        simp [setVal, findVal, Ne.symm h]
      · simp [setVal, ha, findVal, ih]

theorem hasField_iff_mem_keysOf (r : Record) (f : String) :
    hasField r f = true ↔ f ∈ keysOf r := by
  induction r with
  | nil => simp [hasField, findVal, keysOf]
  | cons p t ih =>
      obtain ⟨a, w⟩ := p
      by_cases h : a = f
      · simp [hasField, findVal, h, keysOf]
      · simpa [hasField, findVal, h, keysOf, Ne.symm h] using ih

theorem keysOf_setVal_mem (r : Record) (k : String) (v : Val)
    (h : hasField r k = true) : keysOf (setVal r k v) = keysOf r := by
  induction r with
  | nil => simp [hasField, findVal] at h
  | cons p t ih =>
      obtain ⟨a, w⟩ := p
      by_cases ha : a = k
      · simp [setVal, ha, keysOf]
      · have h2 : hasField t k = true := by
          simpa [hasField, findVal, ha] using h
        simp [setVal, ha, keysOf] at *
        exact ih h2

theorem keysOf_setVal_notMem (r : Record) (k : String) (v : Val)
    (h : hasField r k = false) : keysOf (setVal r k v) = keysOf r ++ [k] := by
  induction r with
  | nil => simp [setVal, keysOf]
  | cons p t ih =>
      obtain ⟨a, w⟩ := p
      by_cases ha : a = k
      · simp [hasField, findVal, ha] at h
      · have h2 : hasField t k = false := by
          simpa [hasField, findVal, ha] using h
        simp [setVal, ha, keysOf] at *
        exact ih h2

theorem nodup_keysOf_setVal (r : Record) (k : String) (v : Val)
    (h : (keysOf r).Nodup) : (keysOf (setVal r k v)).Nodup := by
  cases hf : hasField r k with
  | true => rw [keysOf_setVal_mem r k v hf]; exact h
  | false =>
      rw [keysOf_setVal_notMem r k v hf]
      have hk : k ∉ keysOf r := by
        intro hmem
        rw [← hasField_iff_mem_keysOf] at hmem
        rw [hf] at hmem
        cases hmem
      simpa [List.nodup_append] using ⟨h, hk⟩

theorem findVal_foldl_setVal (val : String → Val) (ws : List String)
    (e0 : Record) (f : String) :
    findVal (ws.foldl (fun e k => setVal e k (val k)) e0) f =
      if f ∈ ws then some (val f) else findVal e0 f := by
  induction ws generalizing e0 with
  | nil => simp
  | cons w t ih =>
      rw [List.foldl_cons, ih]
      by_cases hft : f ∈ t
      · simp [hft]
      · by_cases hfw : f = w
        · subst hfw
          simp [hft, findVal_setVal_self]
        · simp [hft, hfw, findVal_setVal_ne e0 w f (val w) hfw]

theorem nodup_keysOf_foldl_setVal (val : String → Val) (ws : List String)
    (e0 : Record) (h : (keysOf e0).Nodup) :
    (keysOf (ws.foldl (fun e k => setVal e k (val k)) e0)).Nodup := by
  induction ws generalizing e0 with
  | nil => exact h
  | cons w t ih => exact ih _ (nodup_keysOf_setVal e0 w (val w) h)

theorem findVal_delVal_ne (r : Record) (k f : String) (h : f ≠ k) :
    findVal (delVal r k) f = findVal r f := by
  induction r with
  | nil => rfl
  | cons p t ih =>
      obtain ⟨a, w⟩ := p
      by_cases ha : a = k
      · subst ha
        simpa [delVal, List.filter_cons, findVal, Ne.symm h] using ih
      · by_cases haf : a = f
        · simp [delVal, List.filter_cons, ha, findVal, haf, h]
        · simpa [delVal, List.filter_cons, ha, findVal, haf] using ih

theorem keysOf_delVal (r : Record) (k : String) :
    keysOf (delVal r k) = (keysOf r).filter (fun f => f ≠ k) := by
  induction r with
  | nil => rfl
  | cons p t ih =>
      obtain ⟨a, w⟩ := p
      by_cases ha : a = k
      · simpa [delVal, List.filter_cons, ha, keysOf] using ih
      · simpa [delVal, List.filter_cons, ha, keysOf] using ih

theorem getV_eq_of_findVal {r : Record} {f : String} {v : Val}
    (h : findVal r f = some v) : getV r f = v := by
  simp [getV, h]

theorem findVal_buildEntry (ks aggr : List String) (item : Record) (c : String)
    (f : String) :
    findVal (buildEntry ks aggr item c) f =
      if f = "key" then some (.str c)
      else if f ∈ aggr then some (.arr [getV item f])
      else if f ∈ ks then some (getV item f)
      else none := by
  unfold buildEntry
  by_cases hk : f = "key"
  · subst hk; simp [findVal_setVal_self]
  · rw [findVal_setVal_ne _ _ _ _ hk,
      findVal_foldl_setVal (fun p => Val.arr [getV item p]) aggr _ f,
      findVal_foldl_setVal (fun k => getV item k) ks [] f]
    simp [hk, findVal]

theorem nodup_keysOf_buildEntry (ks aggr : List String) (item : Record)
    (c : String) : (keysOf (buildEntry ks aggr item c)).Nodup := by
  unfold buildEntry
  apply nodup_keysOf_setVal
  apply nodup_keysOf_foldl_setVal
  apply nodup_keysOf_foldl_setVal
  simp [keysOf]

theorem hasField_buildEntry (ks aggr : List String) (item : Record) (c : String)
    (f : String) :
    hasField (buildEntry ks aggr item c) f = true ↔
      (f = "key" ∨ f ∈ aggr ∨ f ∈ ks) := by
  rw [hasField, findVal_buildEntry]
  by_cases hk : f = "key" <;> by_cases ha : f ∈ aggr <;> by_cases hs : f ∈ ks <;>
    simp [hk, ha, hs]

theorem headD_append_of_ne_nil {l : List Record} (x : Record) (d : Record)
    (h : l ≠ []) : (l ++ [x]).headD d = l.headD d := by
  cases l with
  | nil => exact absurd rfl h
  | cons a t => rfl

theorem pushProps_spec (item : Record) (aggr : List String) (e : Record)
    (hnd : aggr.Nodup)
    (harr : ∀ p ∈ aggr, ∃ l, findVal e p = some (.arr l)) :
    ∃ e2, pushProps item aggr e = .ok e2 ∧
      keysOf e2 = keysOf e ∧
      (∀ f, f ∉ aggr → findVal e2 f = findVal e f) ∧
      (∀ p ∈ aggr, ∀ l, findVal e p = some (.arr l) →
        findVal e2 p = some (.arr (l ++ [getV item p]))) := by
  induction aggr generalizing e with
  | nil => exact ⟨e, rfl, rfl, fun f _ => rfl, by simp⟩
  | cons p rest ih =>
      obtain ⟨l, hl⟩ := harr p (List.mem_cons_self p rest)
      have hget : getV e p = .arr l := getV_eq_of_findVal hl
      have hfield : hasField e p = true := by simp [hasField, hl]
      have hstep : pushProps item (p :: rest) e =
          pushProps item rest (setVal e p (.arr (l ++ [getV item p]))) := by
        unfold pushProps
        rw [List.foldlM_cons, hget]
        rfl
      set e1 := setVal e p (.arr (l ++ [getV item p])) with he1
      have hnd2 : rest.Nodup := (List.nodup_cons.1 hnd).2
      have hpr : p ∉ rest := (List.nodup_cons.1 hnd).1
      have harr2 : ∀ q ∈ rest, ∃ l2, findVal e1 q = some (.arr l2) := by
        intro q hq
        obtain ⟨l2, hl2⟩ := harr q (List.mem_cons_of_mem p hq)
        refine ⟨l2, ?_⟩
        rw [he1, findVal_setVal_ne e p q _ (fun hqp => hpr (hqp ▸ hq))]
        exact hl2
      obtain ⟨e2, hok, hkeys, hother, hpush⟩ := ih e1 hnd2 harr2
      refine ⟨e2, by rw [hstep]; exact hok, ?_, ?_, ?_⟩
      · rw [hkeys, he1, keysOf_setVal_mem e p _ hfield]
      · intro f hf
        have hfp : f ≠ p := fun hh => hf (hh ▸ List.mem_cons_self p rest)
        have hfr : f ∉ rest := fun hh => hf (List.mem_cons_of_mem p hh)
        rw [hother f hfr, he1, findVal_setVal_ne e p f _ hfp]
      · intro q hq l2 hl2
        rcases List.mem_cons.1 hq with hq1 | hq2
        · subst hq1
          have : l2 = l := by
            have h2 := hl.symm.trans hl2
            simpa using h2.symm
          subst this
          rw [hother q hpr, he1, findVal_setVal_self]
        · have hqp : q ≠ p := fun hh => hpr (hh ▸ hq2)
          have hl2e1 : findVal e1 q = some (.arr l2) := by
            rw [he1, findVal_setVal_ne e p q _ hqp]; exact hl2
          exact hpush q hq2 l2 hl2e1

theorem memsOf_append_other (ks : List String) (c : String)
    (processed : List Record) (r : Record)
    (h : hasAll r ks = false ∨ compositeOf ks r ≠ c) :
    memsOf ks c (processed ++ [r]) = memsOf ks c processed := by
  unfold memsOf
  rw [List.filter_append]
  have : (hasAll r ks && (compositeOf ks r == c)) = false := by
    rcases h with h | h
    · simp [h]
    · simp [h]
  simp [this]

theorem memsOf_append_match (ks : List String) (c : String)
    (processed : List Record) (r : Record)
    (h1 : hasAll r ks = true) (h2 : compositeOf ks r = c) :
    memsOf ks c (processed ++ [r]) = memsOf ks c processed ++ [r] := by
  unfold memsOf
  rw [List.filter_append]
  have : (hasAll r ks && (compositeOf ks r == c)) = true := by simp [h1, h2]
  simp [this]

theorem EntryInv_extend (ks F : List String) (processed : List Record)
    (c : String) (e : Record) (r : Record)
    (h : hasAll r ks = false ∨ compositeOf ks r ≠ c)
    (hE : EntryInv ks F processed c e) :
    EntryInv ks F (processed ++ [r]) c e := by
  have hm := memsOf_append_other ks c processed r h
  exact ⟨hE.fields, hE.nodup, hE.keyv, by rw [hm]; exact hE.nonemp,
    by rw [hm]; exact hE.keyvals, by rw [hm]; exact hE.aggrvals⟩

theorem aggrOf_mem_iff (ks F : List String) (r : Record)
    (hfld : ∀ f, hasField r f = true ↔ f ∈ F) (p : String) :
    p ∈ aggrOf ks r ↔ (p ∈ F ∧ p ∉ ks) := by
  unfold aggrOf
  rw [List.mem_filter]
  rw [← hasField_iff_mem_keysOf]
  simp [hfld]

theorem aggrOf_nodup (ks : List String) (r : Record)
    (hnd : (keysOf r).Nodup) : (aggrOf ks r).Nodup :=
  hnd.filter _

theorem EntryInv_push (ks F : List String) (processed : List Record)
    (c : String) (e : Record) (r : Record)
    (hkeyF : "key" ∉ F)
    (hpass : hasAll r ks = true)
    (hnd : (keysOf r).Nodup)
    (hfld : ∀ f, hasField r f = true ↔ f ∈ F)
    (hc : compositeOf ks r = c)
    (hE : EntryInv ks F processed c e) :
    ∃ e2, pushProps r (aggrOf ks r) e = .ok e2 ∧
      EntryInv ks F (processed ++ [r]) c e2 ∧
      getV e2 "key" = getV e "key" := by
  have haggr : ∀ p, p ∈ aggrOf ks r ↔ (p ∈ F ∧ p ∉ ks) := aggrOf_mem_iff ks F r hfld
  have hkeyaggr : "key" ∉ aggrOf ks r := by
    intro h
    exact hkeyF ((haggr "key").1 h).1
  have harr : ∀ p ∈ aggrOf ks r, ∃ l, findVal e p = some (.arr l) := by
    intro p hp
    obtain ⟨hpF, hpks⟩ := (haggr p).1 hp
    exact ⟨_, hE.aggrvals p hpF hpks⟩
  obtain ⟨e2, hok, hkeys, hother, hpush⟩ :=
    pushProps_spec r (aggrOf ks r) e (aggrOf_nodup ks r hnd) harr
  have hm := memsOf_append_match ks c processed r hpass hc
  have hkeysame : getV e2 "key" = getV e "key" := by
    rw [getV, getV, hother "key" hkeyaggr]
  refine ⟨e2, hok, ?_, hkeysame⟩
  refine ⟨?_, ?_, ?_, ?_, ?_, ?_⟩
  · intro f
    rw [hasField_iff_mem_keysOf, hkeys, ← hasField_iff_mem_keysOf]
    exact hE.fields f
  · rw [hkeys]; exact hE.nodup
  · rw [hother "key" hkeyaggr]; exact hE.keyv
  · rw [hm]; simp
  · intro k hk
    have hkaggr : k ∉ aggrOf ks r := by
      intro h
      exact ((haggr k).1 h).2 hk
    rw [hother k hkaggr, hm, headD_append_of_ne_nil r [] hE.nonemp]
    exact hE.keyvals k hk
  · intro p hpF hpks
    have hpaggr : p ∈ aggrOf ks r := (haggr p).2 ⟨hpF, hpks⟩
    rw [hm, List.map_append]
    exact hpush p hpaggr _ (hE.aggrvals p hpF hpks)

theorem EntryInv_build (ks F : List String) (processed : List Record)
    (r : Record)
    (hkeyF : "key" ∉ F) (hkeyks : "key" ∉ ks)
    (hpass : hasAll r ks = true)
    (hnd : (keysOf r).Nodup)
    (hfld : ∀ f, hasField r f = true ↔ f ∈ F)
    (hmems : memsOf ks (compositeOf ks r) processed = []) :
    EntryInv ks F (processed ++ [r]) (compositeOf ks r)
      (buildEntry ks (aggrOf ks r) r (compositeOf ks r)) := by
  have haggr : ∀ p, p ∈ aggrOf ks r ↔ (p ∈ F ∧ p ∉ ks) := aggrOf_mem_iff ks F r hfld
  have hksF : ∀ k ∈ ks, k ∈ F := by
    intro k hk
    rw [← hfld]
    exact List.all_eq_true.1 hpass k hk
  have hm : memsOf ks (compositeOf ks r) (processed ++ [r]) = [r] := by
    rw [memsOf_append_match ks _ processed r hpass rfl, hmems]
    rfl
  refine ⟨?_, nodup_keysOf_buildEntry _ _ _ _, ?_, ?_, ?_, ?_⟩
  · intro f
    rw [hasField_buildEntry]
    constructor
    · rintro (h | h | h)
      · exact Or.inr h
      · exact Or.inl ((haggr f).1 h).1
      · exact Or.inl (hksF f h)
    · rintro (h | h)
      · by_cases hks : f ∈ ks
        · exact Or.inr (Or.inr hks)
        · exact Or.inr (Or.inl ((haggr f).2 ⟨h, hks⟩))
      · exact Or.inl h
  · rw [findVal_buildEntry]; simp
  · rw [hm]; simp
  · intro k hk
    have hkkey : k ≠ "key" := fun h => hkeyks (h ▸ hk)
    have hkaggr : k ∉ aggrOf ks r := fun h => ((haggr k).1 h).2 hk
    rw [findVal_buildEntry, if_neg hkkey, if_neg hkaggr, if_pos hk, hm]
    rfl
  · intro p hpF hpks
    have hpkey : p ≠ "key" := fun h => hkeyF (h ▸ hpF)
    have hpaggr : p ∈ aggrOf ks r := (haggr p).2 ⟨hpF, hpks⟩
    rw [findVal_buildEntry, if_neg hpkey, if_pos hpaggr, hm]
    rfl

theorem insertItem_match (ks : List String) (item : Record) (c : String)
    (aggr : List String) (e : Record) (acc : List Record)
    (hb : Val.beq (getV e "key") (.str c) = true) (e2 : Record)
    (hok : pushProps item aggr e = .ok e2) :
    insertItem ks item c aggr (e :: acc) = .ok (e2 :: acc) := by
  unfold insertItem
  rw [if_pos hb]
  rw [hok]
  rfl

theorem insertItem_nomatch (ks : List String) (item : Record) (c : String)
    (aggr : List String) (e : Record) (acc : List Record)
    (hb : Val.beq (getV e "key") (.str c) = false) (acc2 : List Record)
    (hok : insertItem ks item c aggr acc = .ok acc2) :
    insertItem ks item c aggr (e :: acc) = .ok (e :: acc2) := by
  conv_lhs => unfold insertItem
  rw [hb]
  simp only [Bool.false_eq_true, if_false]
  rw [hok]
  rfl

theorem insertItem_preserves (ks F : List String) (processed : List Record)
    (r : Record) (acc : List Record)
    (hkeyF : "key" ∉ F) (hkeyks : "key" ∉ ks)
    (hpass : hasAll r ks = true)
    (hnd : (keysOf r).Nodup)
    (hfld : ∀ f, hasField r f = true ↔ f ∈ F)
    (hent : ∀ e ∈ acc, ∃ c, EntryInv ks F processed c e)
    (hdis : List.Pairwise (fun e1 e2 => getV e1 "key" ≠ getV e2 "key") acc)
    (hmems : (∀ e ∈ acc, getV e "key" ≠ .str (compositeOf ks r)) →
      memsOf ks (compositeOf ks r) processed = []) :
    ∃ acc2, insertItem ks r (compositeOf ks r) (aggrOf ks r) acc = .ok acc2 ∧
      (∀ e ∈ acc2, ∃ c, EntryInv ks F (processed ++ [r]) c e) ∧
      List.Pairwise (fun e1 e2 => getV e1 "key" ≠ getV e2 "key") acc2 ∧
      (∀ e ∈ acc, ∃ e2 ∈ acc2, getV e2 "key" = getV e "key") ∧
      (∃ e2 ∈ acc2, getV e2 "key" = .str (compositeOf ks r)) ∧
      (∀ e2 ∈ acc2, getV e2 "key" = .str (compositeOf ks r) ∨
        ∃ e ∈ acc, getV e2 "key" = getV e "key") := by
  induction acc with
  | nil =>
      have hm := hmems (by intro e he; cases he)
      have hkeyval : getV (buildEntry ks (aggrOf ks r) r (compositeOf ks r)) "key"
          = .str (compositeOf ks r) :=
        getV_eq_of_findVal (by rw [findVal_buildEntry]; simp)
      refine ⟨[buildEntry ks (aggrOf ks r) r (compositeOf ks r)], rfl, ?_, ?_, ?_, ?_, ?_⟩
      · intro e he
        rw [List.mem_singleton] at he
        subst he
        exact ⟨_, EntryInv_build ks F processed r hkeyF hkeyks hpass hnd hfld hm⟩
      · exact List.pairwise_singleton _ _
      · intro e he; cases he
      · exact ⟨_, List.mem_singleton_self _, hkeyval⟩
      · intro e2 he2
        rw [List.mem_singleton] at he2
        subst he2
        exact Or.inl hkeyval
  | cons e rest ih =>
      obtain ⟨c, hE⟩ := hent e (List.mem_cons_self e rest)
      have hekey : getV e "key" = .str c := getV_eq_of_findVal hE.keyv
      have hhead : ∀ y ∈ rest, getV e "key" ≠ getV y "key" :=
        (List.pairwise_cons.1 hdis).1
      have htail : List.Pairwise (fun e1 e2 => getV e1 "key" ≠ getV e2 "key") rest :=
        (List.pairwise_cons.1 hdis).2
      by_cases hb : Val.beq (getV e "key") (.str (compositeOf ks r)) = true
      · have hkey : getV e "key" = .str (compositeOf ks r) := (Val.beq_iff _ _).1 hb
        have hc : compositeOf ks r = c := by
          rw [hekey] at hkey
          exact (Val.str.inj hkey).symm
        obtain ⟨e2, hok, hE2, hkeep⟩ :=
          EntryInv_push ks F processed c e r hkeyF hpass hnd hfld hc hE
        refine ⟨e2 :: rest,
          insertItem_match ks r (compositeOf ks r) (aggrOf ks r) e rest hb e2 hok,
          ?_, ?_, ?_, ?_, ?_⟩
        · intro e3 he3
          rcases List.mem_cons.1 he3 with he3 | he3
          · subst he3; exact ⟨c, hE2⟩
          · obtain ⟨c3, hE3⟩ := hent e3 (List.mem_cons_of_mem e he3)
            have hne3 : compositeOf ks r ≠ c3 := by
              intro hq
              have h1 : getV e3 "key" = .str c3 := getV_eq_of_findVal hE3.keyv
              exact hhead e3 he3 (by rw [hkey, h1, hq])
            exact ⟨c3, EntryInv_extend ks F processed c3 e3 r (Or.inr hne3) hE3⟩
        · rw [List.pairwise_cons]
          refine ⟨?_, htail⟩
          intro y hy
          rw [hkeep]
          exact hhead y hy
        · intro e3 he3
          rcases List.mem_cons.1 he3 with he3 | he3
          · subst he3; exact ⟨e2, List.mem_cons_self _ _, hkeep⟩
          · exact ⟨e3, List.mem_cons_of_mem _ he3, rfl⟩
        · exact ⟨e2, List.mem_cons_self _ _, by rw [hkeep, hkey]⟩
        · intro e3 he3
          rcases List.mem_cons.1 he3 with he3 | he3
          · subst he3; exact Or.inl (by rw [hkeep, hkey])
          · exact Or.inr ⟨e3, List.mem_cons_of_mem _ he3, rfl⟩
      · have hb2 : Val.beq (getV e "key") (.str (compositeOf ks r)) = false := by
          rw [Bool.eq_false_iff]
          exact hb
        have hne : getV e "key" ≠ .str (compositeOf ks r) := by
          intro hq
          exact hb ((Val.beq_iff _ _).2 hq)
        have hmems2 : (∀ e3 ∈ rest, getV e3 "key" ≠ .str (compositeOf ks r)) →
            memsOf ks (compositeOf ks r) processed = [] := by
          intro h
          apply hmems
          intro e3 he3
          rcases List.mem_cons.1 he3 with he3 | he3
          · subst he3; exact hne
          · exact h e3 he3
        obtain ⟨rest2, hok, hents2, hdis2, hsurv2, hcov2, hbound2⟩ :=
          ih (fun e3 he3 => hent e3 (List.mem_cons_of_mem e he3)) htail hmems2
        refine ⟨e :: rest2,
          insertItem_nomatch ks r (compositeOf ks r) (aggrOf ks r) e rest hb2 rest2 hok,
          ?_, ?_, ?_, ?_, ?_⟩
        · intro e3 he3
          rcases List.mem_cons.1 he3 with he3 | he3
          · have hcne : compositeOf ks r ≠ c := by
              intro hq
              exact hne (by rw [hekey, hq])
            rw [he3]
            exact ⟨c, EntryInv_extend ks F processed c e r (Or.inr hcne) hE⟩
          · exact hents2 e3 he3
        · rw [List.pairwise_cons]
          refine ⟨?_, hdis2⟩
          intro y hy
          rcases hbound2 y hy with hyk | ⟨e0, he0, hyk⟩
          · rw [hyk]; exact hne
          · rw [hyk]; exact hhead e0 he0
        · intro e3 he3
          rcases List.mem_cons.1 he3 with he3 | he3
          · subst he3; exact ⟨e3, List.mem_cons_self _ _, rfl⟩
          · obtain ⟨e4, he4, hk4⟩ := hsurv2 e3 he3
            exact ⟨e4, List.mem_cons_of_mem _ he4, hk4⟩
        · obtain ⟨e4, he4, hk4⟩ := hcov2
          exact ⟨e4, List.mem_cons_of_mem _ he4, hk4⟩
        · intro e3 he3
          rcases List.mem_cons.1 he3 with he3 | he3
          · subst he3; exact Or.inr ⟨e3, List.mem_cons_self _ _, rfl⟩
          · rcases hbound2 e3 he3 with h | ⟨e0, he0, hk⟩
            · exact Or.inl h
            · exact Or.inr ⟨e0, List.mem_cons_of_mem _ he0, hk⟩

theorem step_preserves (ks F : List String)
    (hkeyF : "key" ∉ F) (hkeyks : "key" ∉ ks)
    (processed acc : List Record) (r : Record)
    (hr : hasAll r ks = true →
      ((keysOf r).Nodup ∧ ∀ f, hasField r f = true ↔ f ∈ F))
    (hinv : GroupInv ks F processed acc) :
    ∃ acc2, step ks acc r = .ok acc2 ∧ GroupInv ks F (processed ++ [r]) acc2 := by
  by_cases hpass : hasAll r ks = true
  · obtain ⟨hnd, hfld⟩ := hr hpass
    have hmems : (∀ e ∈ acc, getV e "key" ≠ .str (compositeOf ks r)) →
        memsOf ks (compositeOf ks r) processed = [] := by
      intro h
      by_contra hne
      obtain ⟨r0, hr0⟩ := List.exists_mem_of_ne_nil _ hne
      have hr0m := List.mem_filter.1 hr0
      have hp := hr0m.2
      rw [Bool.and_eq_true] at hp
      have hcomp : compositeOf ks r0 = compositeOf ks r := by simpa using hp.2
      obtain ⟨e, he, hek⟩ := hinv.covers r0 hr0m.1 hp.1
      exact h e he (by rw [hek, hcomp])
    obtain ⟨acc2, hok, hents, hdis, hsurv, hcov, _⟩ :=
      insertItem_preserves ks F processed r acc hkeyF hkeyks hpass hnd hfld
        hinv.entries hinv.distinct hmems
    refine ⟨acc2, ?_, hents, hdis, ?_⟩
    · unfold step
      rw [if_pos hpass]
      exact hok
    · intro r0 hr0 hp0
      rcases List.mem_append.1 hr0 with h | h
      · obtain ⟨e, he, hek⟩ := hinv.covers r0 h hp0
        obtain ⟨e2, he2, hk2⟩ := hsurv e he
        exact ⟨e2, he2, by rw [hk2, hek]⟩
      · rw [List.mem_singleton] at h
        subst h
        exact hcov
  · have hpf : hasAll r ks = false := Bool.eq_false_iff.2 hpass
    refine ⟨acc, ?_, ?_, hinv.distinct, ?_⟩
    · unfold step
      rw [if_neg hpass]
    · intro e he
      obtain ⟨c, hE⟩ := hinv.entries e he
      exact ⟨c, EntryInv_extend ks F processed c e r (Or.inl hpf) hE⟩
    · intro r0 hr0 hp0
      rcases List.mem_append.1 hr0 with h | h
      · exact hinv.covers r0 h hp0
      · rw [List.mem_singleton] at h
        subst h
        exact absurd hp0 hpass

theorem foldlM_step_inv (ks F : List String)
    (hkeyF : "key" ∉ F) (hkeyks : "key" ∉ ks) :
    ∀ (rest processed acc : List Record),
      GroupInv ks F processed acc →
      (∀ r ∈ rest, hasAll r ks = true →
        ((keysOf r).Nodup ∧ ∀ f, hasField r f = true ↔ f ∈ F)) →
      ∃ acc2, List.foldlM (step ks) acc rest = .ok acc2 ∧
        GroupInv ks F (processed ++ rest) acc2
  | [], processed, acc, hinv, _ => ⟨acc, rfl, by simpa using hinv⟩
  | r :: rest, processed, acc, hinv, hr => by
      obtain ⟨acc1, hok1, hinv1⟩ :=
        step_preserves ks F hkeyF hkeyks processed acc r
          (hr r (List.mem_cons_self r rest)) hinv
      obtain ⟨acc2, hok2, hinv2⟩ :=
        foldlM_step_inv ks F hkeyF hkeyks rest (processed ++ [r]) acc1 hinv1
          (fun r2 h2 => hr r2 (List.mem_cons_of_mem r h2))
      refine ⟨acc2, ?_, ?_⟩
      · rw [List.foldlM_cons, hok1]
        exact hok2
      · rw [show processed ++ r :: rest = (processed ++ [r]) ++ rest by simp]
        exact hinv2

theorem groupCore_ok (ks F : List String)
    (hkeyF : "key" ∉ F) (hkeyks : "key" ∉ ks) (R : List Record)
    (hR : ∀ r ∈ R, hasAll r ks = true →
      ((keysOf r).Nodup ∧ ∀ f, hasField r f = true ↔ f ∈ F)) :
    ∃ acc, groupCore ks R = .ok acc ∧ GroupInv ks F R acc := by
  have hbase : GroupInv ks F [] [] :=
    ⟨fun e he => absurd he (List.not_mem_nil e), List.Pairwise.nil,
      fun r hr2 => absurd hr2 (List.not_mem_nil r)⟩
  obtain ⟨acc, hok, hinv⟩ := foldlM_step_inv ks F hkeyF hkeyks R [] [] hbase hR
  exact ⟨acc, hok, by simpa using hinv⟩

theorem foldlM_indexVal_ok (item : Record) (aggr : List String) (i : Nat)
    (base : Record)
    (harr : ∀ p ∈ aggr, ∃ l, findVal item p = some (.arr l)) :
    aggr.foldlM (fun m p => do
        let v ← indexVal (getV item p) i
        Except.ok (setVal m p v)) base =
      .ok (aggr.foldl
        (fun m p => setVal m p ((arrVals item p).getD i .undef)) base) := by
  induction aggr generalizing base with
  | nil => rfl
  | cons p rest ih =>
      obtain ⟨l, hl⟩ := harr p (List.mem_cons_self p rest)
      have hget : getV item p = .arr l := getV_eq_of_findVal hl
      have hav : arrVals item p = l := by simp [arrVals, hl]
      rw [List.foldlM_cons, List.foldl_cons]
      have hone : (do
          let v ← indexVal (getV item p) i
          Except.ok (setVal base p v)) =
          Except.ok (setVal base p ((arrVals item p).getD i .undef)) := by
        rw [hget, hav]
        rfl
      rw [hone]
      show rest.foldlM _ _ = _
      exact ih _ (fun q hq => harr q (List.mem_cons_of_mem p hq))

theorem mapM_ok_of {α β : Type} (f : α → Except JsError β) (g : α → β)
    (l : List α) (h : ∀ x ∈ l, f x = .ok (g x)) :
    l.mapM f = .ok (l.map g) := by
  induction l with
  | nil => rfl
  | cons a t ih =>
      rw [List.mapM_cons, h a (List.mem_cons_self a t),
        ih (fun x hx => h x (List.mem_cons_of_mem a hx))]
      rfl

theorem findVal_ungroupBase (ks : List String) (e : Record) (f : String) :
    findVal (ungroupBase ks e) f =
      if f ∈ ks then some (getV e f) else none := by
  unfold ungroupBase
  rw [findVal_foldl_setVal (fun k => getV e k) ks [] f]
  simp [findVal]

theorem findVal_reconOf (ks : List String) (e : Record) (i : Nat) (f : String) :
    findVal (reconOf ks e i) f =
      if f ∈ aggrOf ks e then some ((arrVals e f).getD i .undef)
      else if f ∈ ks then some (getV e f)
      else none := by
  unfold reconOf
  rw [findVal_foldl_setVal (fun p => (arrVals e p).getD i .undef) _ _ f,
    findVal_ungroupBase]

theorem nodup_keysOf_reconOf (ks : List String) (e : Record) (i : Nat) :
    (keysOf (reconOf ks e i)).Nodup := by
  unfold reconOf ungroupBase
  apply nodup_keysOf_foldl_setVal
  apply nodup_keysOf_foldl_setVal
  simp [keysOf]

theorem ungroupOne_eval (ks : List String) (e : Record) (n : Nat)
    (hne : aggrOf ks e ≠ [])
    (harr : ∀ p ∈ aggrOf ks e, ∃ l, findVal e p = some (.arr l) ∧ l.length = n) :
    ungroupOne ks e = .ok ((List.range n).map (reconOf ks e)) := by
  obtain ⟨p0, t, hpt⟩ := List.exists_cons_of_ne_nil hne
  obtain ⟨l0, hl0, hlen0⟩ := harr p0 (by rw [hpt]; exact List.mem_cons_self p0 t)
  have hhead : (aggrOf ks e).headD "undefined" = p0 := by rw [hpt]; rfl
  have hbound : jsLen (getV e ((aggrOf ks e).headD "undefined")) = .ok n := by
    rw [hhead, getV_eq_of_findVal hl0]
    simp [jsLen, hlen0]
  rw [show ungroupOne ks e = (do
      let bound ← jsLen (getV e ((aggrOf ks e).headD "undefined"))
      (List.range bound).mapM (fun i =>
        (aggrOf ks e).foldlM
          (fun m p => do
            let v ← indexVal (getV e p) i
            Except.ok (setVal m p v))
          (ungroupBase ks e))) from rfl]
  rw [hbound]
  show (List.range n).mapM _ = _
  apply mapM_ok_of
  intro i _
  exact foldlM_indexVal_ok e (aggrOf ks e) i (ungroupBase ks e)
    (fun p hp => (harr p hp).imp (fun l hl => hl.1))

theorem lexLe_trans : ∀ as bs cs : List Char,
    lexLe as bs = true → lexLe bs cs = true → lexLe as cs = true
  | [], _, _ => by intro _ _; rfl
  | _ :: _, [], _ => by intro h _; cases h
  | _ :: _, _ :: _, [] => by intro _ h; cases h
  | a :: as, b :: bs, c :: cs => by
      intro h1 h2
      simp only [lexLe] at h1 h2 ⊢
      split_ifs at h1 h2 ⊢ <;>
        first
          | rfl
          | (exact lexLe_trans as bs cs h1 h2)
          | (exfalso; omega)
          | (exact absurd h1 Bool.false_ne_true)
          | (exact absurd h2 Bool.false_ne_true)

theorem lexLe_total : ∀ as bs : List Char,
    (lexLe as bs || lexLe bs as) = true
  | [], _ => by simp [lexLe]
  | _ :: _, [] => by simp [lexLe]
  | a :: as, b :: bs => by
      simp only [lexLe]
      split_ifs with g1 g2 <;>
        first
          | rfl
          | (exact lexLe_total as bs)

theorem lexLe_antisymm : ∀ as bs : List Char,
    lexLe as bs = true → lexLe bs as = true → as = bs
  | [], [] => by intro _ _; rfl
  | [], _ :: _ => by intro _ h; cases h
  | _ :: _, [] => by intro h _; cases h
  | a :: as, b :: bs => by
      intro h1 h2
      simp only [lexLe] at h1 h2
      split_ifs at h1 h2 with g1 g2 <;>
        first
          | (exfalso; omega)
          | (exact absurd h1 Bool.false_ne_true)
          | (exact absurd h2 Bool.false_ne_true)
          | (have hnat : a.toNat = b.toNat := by omega
             have hc : a = b := Char.ext (UInt32.ext hnat)
             rw [hc, lexLe_antisymm as bs h1 h2])

theorem strLeB_trans (a b c : String) (h1 : strLeB a b = true)
    (h2 : strLeB b c = true) : strLeB a c = true :=
  lexLe_trans a.data b.data c.data h1 h2

theorem strLeB_total (a b : String) : (strLeB a b || strLeB b a) = true :=
  lexLe_total a.data b.data

theorem strLeB_antisymm (a b : String) (h1 : strLeB a b = true)
    (h2 : strLeB b a = true) : a = b := by
  have h := lexLe_antisymm a.data b.data h1 h2
  cases a with
  | mk d1 =>
      cases b with
      | mk d2 => exact congrArg String.mk h

theorem strLe_total : ∀ a b : String, strLe a b ∨ strLe b a := by
  intro a b
  have h := strLeB_total a b
  rcases Bool.or_eq_true_iff.1 h with h | h
  · exact Or.inl h
  · exact Or.inr h

instance : IsTotal String strLe := ⟨strLe_total⟩

instance : IsTrans String strLe := ⟨fun a b c => strLeB_trans a b c⟩

instance : IsAntisymm String strLe := ⟨fun a b => strLeB_antisymm a b⟩

theorem normalize_eq_of (r r2 : Record)
    (h1 : (keysOf r).Nodup) (h2 : (keysOf r2).Nodup)
    (hmem : ∀ f, f ∈ keysOf r ↔ f ∈ keysOf r2)
    (hval : ∀ f ∈ keysOf r, getV r f = getV r2 f) :
    normalize r = normalize r2 := by
  have hperm : (keysOf r).Perm (keysOf r2) :=
    (List.perm_ext_iff_of_nodup h1 h2).2 hmem
  have hp : (List.insertionSort strLe (keysOf r)).Perm
      (List.insertionSort strLe (keysOf r2)) :=
    ((List.perm_insertionSort _ _).trans hperm).trans
      (List.perm_insertionSort _ _).symm
  have heq := List.eq_of_perm_of_sorted hp
    (List.sorted_insertionSort strLe (keysOf r))
    (List.sorted_insertionSort strLe (keysOf r2))
  unfold normalize
  rw [← heq]
  apply List.map_congr_left
  intro f hf
  have hfr : f ∈ keysOf r := (List.perm_insertionSort strLe (keysOf r)).mem_iff.1 hf
  rw [hval f hfr]

theorem flatten_filters_perm {α β : Type} [DecidableEq β] (f : α → β) :
    ∀ (cs : List β) (l : List α), cs.Nodup → (∀ x ∈ l, f x ∈ cs) →
      ((cs.map (fun c => l.filter (fun x => f x == c))).flatten).Perm l
  | [], l, _, hcov => by
      cases l with
      | nil => simp
      | cons a t => exact absurd (hcov a (List.mem_cons_self a t)) (List.not_mem_nil _)
  | c :: cs, l, hnd, hcov => by
      rw [List.map_cons, List.flatten_cons]
      have hnd2 : cs.Nodup := (List.nodup_cons.1 hnd).2
      have hcns : c ∉ cs := (List.nodup_cons.1 hnd).1
      have hfc : ∀ c2 ∈ cs, l.filter (fun x => f x == c2) =
          (l.filter (fun x => !(f x == c))).filter (fun x => f x == c2) := by
        intro c2 hc2
        rw [List.filter_filter]
        apply List.filter_congr
        intro x _
        cases hx : (f x == c2) with
        | false => rfl
        | true =>
            have : f x = c2 := by simpa using hx
            have hne : (f x == c) = false := by
              simp only [beq_eq_false_iff_ne, ne_eq, this]
              intro hq
              exact hcns (hq ▸ hc2)
            simp [hne]
      have hcov2 : ∀ x ∈ l.filter (fun x => !(f x == c)), f x ∈ cs := by
        intro x hx
        have hx2 := List.mem_filter.1 hx
        rcases List.mem_cons.1 (hcov x hx2.1) with h | h
        · exfalso
          have := hx2.2
          simp [h] at this
        · exact h
      have hmap : cs.map (fun c2 => l.filter (fun x => f x == c2)) =
          cs.map (fun c2 => (l.filter (fun x => !(f x == c))).filter
            (fun x => f x == c2)) :=
        List.map_congr_left hfc
      rw [hmap]
      have hih := flatten_filters_perm f cs (l.filter (fun x => !(f x == c)))
        hnd2 hcov2
      exact (hih.append_left _).trans (List.filter_append_perm _ l)

theorem entry_roundtrip (ks F : List String) (R : List Record) (c : String)
    (e : Record)
    (hkeyF : "key" ∉ F)
    (hnkF : ∃ p ∈ F, p ∉ ks)
    (hE : EntryInv ks F R c e)
    (hRfld : ∀ r ∈ R, (keysOf r).Nodup ∧ (∀ f, hasField r f = true ↔ f ∈ F))
    (hinj : ∀ r ∈ R, ∀ r2 ∈ R, compositeOf ks r = compositeOf ks r2 →
      ∀ k ∈ ks, getV r k = getV r2 k) :
    ∃ outs, ungroupOne ks (delVal e "key") = .ok outs ∧
      outs.map normalize = (memsOf ks c R).map normalize := by
  obtain ⟨m0, mt, hmt⟩ := List.exists_cons_of_ne_nil hE.nonemp
  have hm0mem : m0 ∈ memsOf ks c R := by
    rw [hmt]; exact List.mem_cons_self m0 mt
  have hmemsfacts : ∀ m ∈ memsOf ks c R, m ∈ R ∧ hasAll m ks = true ∧
      compositeOf ks m = c := by
    intro m hm
    obtain ⟨hmem, hpred⟩ := List.mem_filter.1 hm
    rw [Bool.and_eq_true] at hpred
    exact ⟨hmem, hpred.1, by simpa using hpred.2⟩
  obtain ⟨hm0R, hm0pass, hm0c⟩ := hmemsfacts m0 hm0mem
  have hkeyks : "key" ∉ ks := by
    intro hkk
    have h1 : hasField m0 "key" = true := List.all_eq_true.1 hm0pass "key" hkk
    exact hkeyF (((hRfld m0 hm0R).2 "key").1 h1)
  have hksF : ∀ k ∈ ks, k ∈ F := by
    intro k hk
    exact ((hRfld m0 hm0R).2 k).1 (List.all_eq_true.1 hm0pass k hk)
  have hfind : ∀ f, f ≠ "key" →
      findVal (delVal e "key") f = findVal e f :=
    fun f hf => findVal_delVal_ne e "key" f hf
  have hfld2 : ∀ f, hasField (delVal e "key") f = true ↔ f ∈ F := by
    intro f
    by_cases hf : f = "key"
    · subst hf
      constructor
      · intro h
        rw [hasField, findVal_delVal] at h
        cases h
      · intro h
        exact absurd h hkeyF
    · rw [hasField, hfind f hf, ← hasField]
      rw [hE.fields f]
      simp [hf]
  have haggr2 : ∀ p, p ∈ aggrOf ks (delVal e "key") ↔ (p ∈ F ∧ p ∉ ks) :=
    aggrOf_mem_iff ks F (delVal e "key") hfld2
  have harrv : ∀ p, p ∈ F → p ∉ ks →
      findVal (delVal e "key") p =
        some (.arr ((memsOf ks c R).map (fun r => getV r p))) := by
    intro p hpF hpks
    have hpkey : p ≠ "key" := fun h => hkeyF (h ▸ hpF)
    rw [hfind p hpkey]
    exact hE.aggrvals p hpF hpks
  have harr : ∀ p ∈ aggrOf ks (delVal e "key"),
      ∃ l, findVal (delVal e "key") p = some (.arr l) ∧
        l.length = (memsOf ks c R).length := by
    intro p hp
    obtain ⟨hpF, hpks⟩ := (haggr2 p).1 hp
    exact ⟨_, harrv p hpF hpks, by simp⟩
  have hne : aggrOf ks (delVal e "key") ≠ [] := by
    obtain ⟨p, hpF, hpks⟩ := hnkF
    exact List.ne_nil_of_mem ((haggr2 p).2 ⟨hpF, hpks⟩)
  refine ⟨(List.range (memsOf ks c R).length).map (reconOf ks (delVal e "key")),
    ungroupOne_eval ks (delVal e "key") (memsOf ks c R).length hne harr, ?_⟩
  apply List.ext_getElem
  · simp
  · intro i h1 h2
    have hinm : i < (memsOf ks c R).length := by simpa using h1
    rw [List.getElem_map, List.getElem_map, List.getElem_map, List.getElem_range]
    have hmmem : (memsOf ks c R)[i] ∈ memsOf ks c R := List.getElem_mem hinm
    obtain ⟨hmR, hmpass, hmc⟩ := hmemsfacts _ hmmem
    obtain ⟨hmnd, hmfld⟩ := hRfld _ hmR
    have hkeysrecon : ∀ f, f ∈ keysOf (reconOf ks (delVal e "key") i) ↔
        (f ∈ aggrOf ks (delVal e "key") ∨ f ∈ ks) := by
      intro f
      rw [← hasField_iff_mem_keysOf, hasField, findVal_reconOf]
      by_cases ha : f ∈ aggrOf ks (delVal e "key") <;>
        by_cases hb : f ∈ ks <;> simp [ha, hb]
    apply normalize_eq_of
    · exact nodup_keysOf_reconOf ks (delVal e "key") i
    · exact hmnd
    · intro f
      rw [hkeysrecon f, ← hasField_iff_mem_keysOf, hmfld f]
      constructor
      · rintro (h | h)
        · exact ((haggr2 f).1 h).1
        · exact hksF f h
      · intro h
        by_cases hb : f ∈ ks
        · exact Or.inr hb
        · exact Or.inl ((haggr2 f).2 ⟨h, hb⟩)
    · intro f hf
      rw [hkeysrecon f] at hf
      rcases hf with hf | hf
      · obtain ⟨hpF, hpks⟩ := (haggr2 f).1 hf
        have hval : arrVals (delVal e "key") f =
            (memsOf ks c R).map (fun r => getV r f) := by
          simp [arrVals, harrv f hpF hpks]
        have hgetr : getV (reconOf ks (delVal e "key") i) f =
            (arrVals (delVal e "key") f).getD i .undef :=
          getV_eq_of_findVal (by rw [findVal_reconOf, if_pos hf])
        rw [hgetr, hval, List.getD_eq_getElem _ _ (by simpa using hinm),
          List.getElem_map]
      · have hfkey : f ≠ "key" := fun h => hkeyks (h ▸ hf)
        have hfaggr : f ∉ aggrOf ks (delVal e "key") := by
          intro h
          exact ((haggr2 f).1 h).2 hf
        have hgetr : getV (reconOf ks (delVal e "key") i) f =
            getV (delVal e "key") f := by
          apply getV_eq_of_findVal
          rw [findVal_reconOf, if_neg hfaggr, if_pos hf]
        have hgete : getV (delVal e "key") f = getV m0 f := by
          apply getV_eq_of_findVal
          rw [hfind f hfkey]
          have h2 := hE.keyvals f hf
          rw [hmt] at h2
          exact h2
        rw [hgetr, hgete]
        exact hinj m0 hm0R _ hmR (by rw [hm0c, hmc]) f hf

theorem keyStrOf_of_inv {ks F : List String} {R : List Record} {c : String}
    {e : Record} (hE : EntryInv ks F R c e) : keyStrOf e = c := by
  rw [keyStrOf, getV_eq_of_findVal hE.keyv]

theorem mapM_ungroupOne_of_entries (ks F : List String) (R : List Record)
    (hkeyF : "key" ∉ F) (hnkF : ∃ p ∈ F, p ∉ ks)
    (hRfld : ∀ r ∈ R, (keysOf r).Nodup ∧ (∀ f, hasField r f = true ↔ f ∈ F))
    (hinj : ∀ r ∈ R, ∀ r2 ∈ R, compositeOf ks r = compositeOf ks r2 →
      ∀ k ∈ ks, getV r k = getV r2 k) :
    ∀ acc : List Record, (∀ e ∈ acc, ∃ c, EntryInv ks F R c e) →
      ∃ ll, (acc.map (fun e => delVal e "key")).mapM (ungroupOne ks) = .ok ll ∧
        ll.map (List.map normalize) =
          acc.map (fun e => (memsOf ks (keyStrOf e) R).map normalize)
  | [], _ => ⟨[], rfl, rfl⟩
  | e :: rest, hacc => by
      obtain ⟨c, hE⟩ := hacc e (List.mem_cons_self e rest)
      obtain ⟨outs, hok1, hnorm1⟩ :=
        entry_roundtrip ks F R c e hkeyF hnkF hE hRfld hinj
      obtain ⟨ll, hok2, hnorm2⟩ :=
        mapM_ungroupOne_of_entries ks F R hkeyF hnkF hRfld hinj rest
          (fun e2 h2 => hacc e2 (List.mem_cons_of_mem e h2))
      refine ⟨outs :: ll, ?_, ?_⟩
      · rw [List.map_cons, List.mapM_cons, hok1, hok2]
        rfl
      · rw [List.map_cons, List.map_cons, hnorm1, hnorm2,
          keyStrOf_of_inv hE]

/-- Claim C5 fails as stated: on two records with all grouping-key fields
present but colliding composite keys (join("-") of ("x-","y") and ("x","-y")
are both "x--y"), the second record's key values are replaced by the first
record's during the round trip, so ungroup(group(R,K),K) is not a permutation
of R. -/
theorem C5_counterexample :
    ∃ gs out, group collideData ["a", "b"] = .ok gs ∧
      ungroup gs ["a", "b"] = .ok out ∧
      ¬ (out.map normalize).Perm (collideData.map normalize) := by
  refine ⟨[[("a", .str "x-"), ("b", .str "y"),
      ("v", .arr [.num 1, .num 2])]],
    [[("a", .str "x-"), ("b", .str "y"), ("v", .num 1)],
     [("a", .str "x-"), ("b", .str "y"), ("v", .num 2)]],
    by decide, by decide, by decide⟩

/-- Claim C5 amended: for a non-empty grouping-key list K and records that all
carry every field of K, share one duplicate-free field set F that contains at
least one non-key field and no field named "key", and whose composite keys do
not collide (records with equal composite keys have equal key-field values),
ungroup(group(R,K),K) succeeds and is a permutation of R up to field order. -/
theorem C5_amended (R : List Record) (ks F : List String)
    (hk : ks ≠ [])
    (hkeyF : "key" ∉ F)
    (hF : ∀ r ∈ R, (keysOf r).Nodup ∧ (∀ f, hasField r f = true ↔ f ∈ F))
    (hks : ∀ r ∈ R, hasAll r ks = true)
    (hnkF : ∃ p ∈ F, p ∉ ks)
    (hinj : ∀ r ∈ R, ∀ r2 ∈ R, compositeOf ks r = compositeOf ks r2 →
      ∀ k ∈ ks, getV r k = getV r2 k) :
    ∃ gs out, group R ks = .ok gs ∧ ungroup gs ks = .ok out ∧
      (out.map normalize).Perm (R.map normalize) := by
  cases hR0 : R with
  | nil => exact ⟨[], [], rfl, rfl, by simp⟩
  | cons r0 R2 =>
  rw [← hR0]
  have hr0R : r0 ∈ R := by rw [hR0]; exact List.mem_cons_self r0 R2
  have hkeyks : "key" ∉ ks := by
    intro hkk
    have h1 : hasField r0 "key" = true :=
      List.all_eq_true.1 (hks r0 hr0R) "key" hkk
    exact hkeyF (((hF r0 hr0R).2 "key").1 h1)
  obtain ⟨acc, hcore, hinv⟩ :=
    groupCore_ok ks F hkeyF hkeyks R (fun r hr _ => hF r hr)
  have hgs : group R ks = .ok (acc.map (fun e => delVal e "key")) := by
    unfold group
    rw [hcore]
    rfl
  obtain ⟨ll, hmapm, hnormll⟩ :=
    mapM_ungroupOne_of_entries ks F R hkeyF hnkF hF hinj acc hinv.entries
  have hout : ungroup (acc.map (fun e => delVal e "key")) ks = .ok ll.flatten := by
    unfold ungroup
    rw [hmapm]
    rfl
  refine ⟨_, _, hgs, hout, ?_⟩
  have hkeystr : ∀ e ∈ acc, ∃ c, getV e "key" = .str c ∧ keyStrOf e = c := by
    intro e he
    obtain ⟨c, hE⟩ := hinv.entries e he
    exact ⟨c, getV_eq_of_findVal hE.keyv, keyStrOf_of_inv hE⟩
  have hndcs : (acc.map keyStrOf).Nodup := by
    show (acc.map keyStrOf).Pairwise (fun a b => a ≠ b)
    rw [List.pairwise_map]
    apply hinv.distinct.imp_of_mem
    intro a b ha hb hne heq
    obtain ⟨ca, hga, hka⟩ := hkeystr a ha
    obtain ⟨cb, hgb, hkb⟩ := hkeystr b hb
    apply hne
    rw [hga, hgb]
    rw [hka, hkb] at heq
    rw [heq]
  have hcovcs : ∀ r ∈ R, compositeOf ks r ∈ acc.map keyStrOf := by
    intro r hr
    obtain ⟨e, he, hek⟩ := hinv.covers r hr (hks r hr)
    obtain ⟨c, hgc, hkc⟩ := hkeystr e he
    have hc : keyStrOf e = compositeOf ks r := by
      rw [hkc]
      rw [hek] at hgc
      exact (Val.str.inj hgc).symm
    exact List.mem_map.2 ⟨e, he, hc⟩
  have hmemsfilter : ∀ c, memsOf ks c R =
      R.filter (fun r => compositeOf ks r == c) := by
    intro c
    unfold memsOf
    apply List.filter_congr
    intro r hr
    rw [hks r hr, Bool.true_and]
  have hperm := flatten_filters_perm (fun r => compositeOf ks r)
    (acc.map keyStrOf) R hndcs hcovcs
  rw [List.map_flatten, hnormll]
  have hlists : acc.map (fun e => (memsOf ks (keyStrOf e) R).map normalize) =
      ((acc.map keyStrOf).map
        (fun c => R.filter (fun r => compositeOf ks r == c))).map
          (List.map normalize) := by
    rw [List.map_map, List.map_map]
    apply List.map_congr_left
    intro e _
    show (memsOf ks (keyStrOf e) R).map normalize = _
    rw [hmemsfilter]
    rfl
  rw [hlists, ← List.map_flatten]
  exact hperm.map normalize

/-- Witness for the amended C5 on a concrete two-group dataset. -/
theorem C5_witness :
    ∃ gs out,
      group [[("a", Val.str "A"), ("v", Val.num 1)],
             [("a", Val.str "B"), ("v", Val.num 2)],
             [("a", Val.str "A"), ("v", Val.num 3)]] ["a"] = .ok gs ∧
      ungroup gs ["a"] = .ok out ∧
      ((out.map normalize).Perm
        (([[("a", Val.str "A"), ("v", Val.num 1)],
           [("a", Val.str "B"), ("v", Val.num 2)],
           [("a", Val.str "A"), ("v", Val.num 3)]] : List Record).map normalize)) :=
  C5_amended
    [[("a", Val.str "A"), ("v", Val.num 1)],
     [("a", Val.str "B"), ("v", Val.num 2)],
     [("a", Val.str "A"), ("v", Val.num 3)]] ["a"] ["a", "v"]
    (by decide) (by decide)
    (by
      intro r hr
      simp only [List.mem_cons, List.not_mem_nil, or_false] at hr
      rcases hr with rfl | rfl | rfl <;>
        exact ⟨by decide, fun f => by
          rw [hasField_iff_mem_keysOf]
          exact Iff.rfl⟩)
    (by decide) (by decide) (by decide)

theorem findVal_eq_some_getV (r : Record) (f : String)
    (h : hasField r f = true) : findVal r f = some (getV r f) := by
  rw [hasField] at h
  cases hv : findVal r f with
  | none => rw [hv] at h; cases h
  | some v => rw [getV, hv]; rfl

theorem findVal_projOne (allowed : List String) (r : Record) (f : String) :
    findVal (projOne allowed r) f =
      if f ∈ allowed then findVal r f else none := by
  rw [projOne, findVal_foldl_setVal (fun k => getV r k) _ _ f]
  by_cases hall : f ∈ allowed
  · by_cases hr : hasField r f = true
    · have hmem : f ∈ (keysOf r).filter (fun k => allowed.contains k) := by
        rw [List.mem_filter]
        exact ⟨(hasField_iff_mem_keysOf r f).1 hr, by simpa using hall⟩
      rw [if_pos hmem, if_pos hall, findVal_eq_some_getV r f hr]
    · have hmem : f ∉ (keysOf r).filter (fun k => allowed.contains k) := by
        rw [List.mem_filter]
        rintro ⟨h1, _⟩
        exact hr ((hasField_iff_mem_keysOf r f).2 h1)
      rw [if_neg hmem, if_pos hall]
      rw [hasField] at hr
      cases hv : findVal r f with
      | none => rfl
      | some v => rw [hv] at hr; exact absurd rfl hr
  · have hmem : f ∉ (keysOf r).filter (fun k => allowed.contains k) := by
      rw [List.mem_filter]
      rintro ⟨_, h2⟩
      exact hall (by simpa using h2)
    rw [if_neg hmem, if_neg hall]
    rfl

theorem nodup_keysOf_projOne (allowed : List String) (r : Record) :
    (keysOf (projOne allowed r)).Nodup := by
  rw [projOne]
  apply nodup_keysOf_foldl_setVal
  simp [keysOf]

theorem toNums_map {α : Type} (g : α → Val) (g2 : α → Rat) (l : List α)
    (h : ∀ m ∈ l, g m = .num (g2 m)) :
    toNums (l.map g) = some (l.map g2) := by
  induction l with
  | nil => rfl
  | cons a t ih =>
      rw [List.map_cons, List.map_cons]
      have h1 : toNum? (g a) = some (g2 a) := by
        rw [h a (List.mem_cons_self a t)]; rfl
      rw [toNums] at *
      rw [List.mapM_cons, h1, ih (fun m hm => h m (List.mem_cons_of_mem a hm))]
      rfl

theorem filterBig_ok (x : String) (gs : List Record)
    (h : ∀ g ∈ gs, ∃ l, findVal g x = some (.arr l)) :
    ∃ gs2, filterBig x gs = .ok gs2 ∧
      ∀ g ∈ gs2, g ∈ gs ∧ ∃ l, findVal g x = some (.arr l) ∧ 1 < l.length := by
  induction gs with
  | nil => exact ⟨[], rfl, fun g hg => absurd hg (List.not_mem_nil g)⟩
  | cons g rest ih =>
      obtain ⟨l, hl⟩ := h g (List.mem_cons_self g rest)
      obtain ⟨gs2, hok, hprop⟩ := ih (fun g2 h2 => h g2 (List.mem_cons_of_mem g h2))
      have hlen : lenGT1 (getV g x) = .ok (decide (1 < l.length)) := by
        rw [getV_eq_of_findVal hl]
        rfl
      refine ⟨if 1 < l.length then g :: gs2 else gs2, ?_, ?_⟩
      · rw [filterBig, hlen, hok]
        show Except.ok (if decide (1 < l.length) = true then g :: gs2 else gs2) = _
        by_cases hb : 1 < l.length
        · rw [if_pos (by simpa using hb), if_pos hb]
        · rw [if_neg (by simpa using hb), if_neg hb]
      · intro g2 hg2
        by_cases hb : 1 < l.length
        · rw [if_pos hb] at hg2
          rcases List.mem_cons.1 hg2 with hg2 | hg2
          · subst hg2
            exact ⟨List.mem_cons_self g2 rest, l, hl, hb⟩
          · obtain ⟨hmem, hrest⟩ := hprop g2 hg2
            exact ⟨List.mem_cons_of_mem g hmem, hrest⟩
        · rw [if_neg hb] at hg2
          obtain ⟨hmem, hrest⟩ := hprop g2 hg2
          exact ⟨List.mem_cons_of_mem g hmem, hrest⟩

theorem mapM_ok_exists {α β : Type} (f : α → Except JsError β)
    (P : α → β → Prop) (l : List α)
    (h : ∀ a ∈ l, ∃ b, f a = .ok b ∧ P a b) :
    ∃ l2, l.mapM f = .ok l2 ∧ ∀ b ∈ l2, ∃ a ∈ l, P a b := by
  induction l with
  | nil => exact ⟨[], rfl, fun b hb => absurd hb (List.not_mem_nil b)⟩
  | cons a t ih =>
      obtain ⟨b, hb, hPb⟩ := h a (List.mem_cons_self a t)
      obtain ⟨l2, hok, hP2⟩ := ih (fun a2 h2 => h a2 (List.mem_cons_of_mem a h2))
      refine ⟨b :: l2, ?_, ?_⟩
      · rw [List.mapM_cons, hb, hok]
        rfl
      · intro b2 hb2
        rcases List.mem_cons.1 hb2 with hb2 | hb2
        · subst hb2
          exact ⟨a, List.mem_cons_self a t, hPb⟩
        · obtain ⟨a2, ha2, hPa2⟩ := hP2 b2 hb2
          exact ⟨a2, List.mem_cons_of_mem a ha2, hPa2⟩

theorem toNums_length {l : List Val} {qs : List Rat}
    (h : toNums l = some qs) : qs.length = l.length := by
  induction l generalizing qs with
  | nil =>
      rw [toNums] at h
      cases h
      rfl
  | cons v t ih =>
      rw [toNums, List.mapM_cons] at h
      cases hv : toNum? v with
      | none => rw [hv] at h; cases h
      | some q =>
          rw [hv] at h
          cases ht : List.mapM toNum? t with
          | none => rw [ht] at h; cases h
          | some qs2 =>
              rw [ht] at h
              cases h
              have := ih (show toNums t = some qs2 from ht)
              simp [this]

theorem predictEntry_ok (x y : String) (newXs : List Rat)
    (g : Record) (xa ya : List Val) (xq yq : List Rat)
    (hfx : findVal g x = some (.arr xa))
    (hfy : findVal g y = some (.arr ya))
    (htx : toNums xa = some xq)
    (hty : toNums ya = some yq)
    (hlen : xa.length = ya.length)
    (h2 : 1 < xa.length) :
    ∃ g2, predictEntry x y newXs g = .ok g2 ∧
      keysOf g2 = keysOf g ∧
      (∀ f, f ≠ x → f ≠ y → findVal g2 f = findVal g f) ∧
      (∃ l : List Val, findVal g2 x = some (.arr l) ∧ l.length = newXs.length) ∧
      (∃ l : List Val, findVal g2 y = some (.arr l) ∧
        l.length = newXs.length) := by
  have hgx : getV g x = .arr xa := getV_eq_of_findVal hfx
  have hgy : getV g y = .arr ya := getV_eq_of_findVal hfy
  have hxqlen : xq.length = xa.length := toNums_length htx
  have hyqlen : yq.length = ya.length := toNums_length hty
  have hlRP := lRP_eq_ok xq yq (by omega) (by omega)
  have hxfield : hasField g x = true := by rw [hasField, hfx]; rfl
  have hyfield : hasField g y = true := by rw [hasField, hfy]; rfl
  refine ⟨setVal (setVal g x (.arr (newXs.map Val.num))) y
      (.arr (newXs.map (fun t => .num (slopeSpec xq yq * t + interceptSpec xq yq)))),
    ?_, ?_, ?_, ?_, ?_⟩
  · show predictEntry x y newXs g = _
    unfold predictEntry
    rw [hgx, hgy]
    show (match toNums xa, toNums ya with
      | some xq2, some yq2 => do
          let f ← linearRegressionPredictor xq2 yq2
          let item1 := setVal g x (.arr (newXs.map Val.num))
          Except.ok (setVal item1 y (.arr (newXs.map (fun t => Val.num (f t)))))
      | _, _ => Except.error .typeError) = _
    rw [htx, hty]
    show (do
      let f ← linearRegressionPredictor xq yq
      let item1 := setVal g x (.arr (newXs.map Val.num))
      Except.ok (setVal item1 y (.arr (newXs.map (fun t => Val.num (f t)))))) = _
    rw [hlRP]
    rfl
  · rw [keysOf_setVal_mem _ y _ (by
        by_cases hxy : x = y
        · subst hxy
          rw [hasField]
          rw [findVal_setVal_self]
          rfl
        · rw [hasField, findVal_setVal_ne g x y _ (Ne.symm hxy), ← hasField]
          exact hyfield),
      keysOf_setVal_mem _ x _ hxfield]
  · intro f hfx2 hfy2
    rw [findVal_setVal_ne _ y f _ hfy2, findVal_setVal_ne g x f _ hfx2]
  · by_cases hxy : x = y
    · subst hxy
      rw [findVal_setVal_self]
      exact ⟨_, rfl, by simp⟩
    · rw [findVal_setVal_ne _ y x _ hxy, findVal_setVal_self]
      exact ⟨_, rfl, by simp⟩
  · rw [findVal_setVal_self]
    exact ⟨_, rfl, by simp⟩

set_option maxRecDepth 100000 in
/-- Claim C6 fails as stated: a record that carries the grouping key and the
independent field but lacks the dependent field makes its group's x sequence
longer than its y sequence; the group passes the size filter and the Regressor
raises InvalidInput, which propagates out of batchPredict. -/
theorem C6_counterexample :
    batchPredict missingYData ["k"] "x" "y" [] = .error .invalidInput := by
  decide

/-- Claim C6 amended: the Regressor error paths are unreachable from
batchPredict provided every record carries both the independent and the
dependent field with numeric values, the two field names are not grouping keys
and none of the grouping keys or the two field names is "key": then
batchPredict never raises at all.  Without the every-record-carries-both
hypothesis, InvalidInput is reachable (see the counterexample). -/
theorem C6_amended (R : List Record) (ks : List String) (x y : String)
    (newXs : List Rat)
    (hxks : x ∉ ks) (hyks : y ∉ ks) (hkeyks : "key" ∉ ks)
    (hxkey : x ≠ "key") (hykey : y ≠ "key")
    (hRn : ∀ r ∈ R, (keysOf r).Nodup)
    (hRx : ∀ r ∈ R, ∃ q, findVal r x = some (.num q))
    (hRy : ∀ r ∈ R, ∃ q, findVal r y = some (.num q)) :
    ∃ out, batchPredict R ks x y newXs = .ok out := by
  have hkeyallowed : "key" ∉ ks ++ [x, y] := by
    intro h
    rcases List.mem_append.1 h with h | h
    · exact hkeyks h
    · simp only [List.mem_cons, List.not_mem_nil, or_false] at h
      rcases h with h | h
      · exact hxkey h.symm
      · exact hykey h.symm
  have hxallowed : x ∈ ks ++ [x, y] := List.mem_append.2 (Or.inr (by simp))
  have hyallowed : y ∈ ks ++ [x, y] := List.mem_append.2 (Or.inr (by simp))
  have hfields : ∀ r1 ∈ R.map (projOne (ks ++ [x, y])), hasAll r1 ks = true →
      ((keysOf r1).Nodup ∧ ∀ f, hasField r1 f = true ↔ f ∈ ks ++ [x, y]) := by
    intro r1 hr1 hpass
    obtain ⟨r, hrR, rfl⟩ := List.mem_map.1 hr1
    refine ⟨nodup_keysOf_projOne _ r, ?_⟩
    intro f
    rw [hasField, findVal_projOne]
    by_cases hall : f ∈ ks ++ [x, y]
    · rw [if_pos hall]
      simp only [hall, iff_true]
      rcases List.mem_append.1 hall with hf | hf
      · have h1 : hasField (projOne (ks ++ [x, y]) r) f = true :=
          List.all_eq_true.1 hpass f hf
        rw [hasField, findVal_projOne, if_pos hall] at h1
        exact h1
      · simp only [List.mem_cons, List.not_mem_nil, or_false] at hf
        rcases hf with rfl | rfl
        · obtain ⟨q, hq⟩ := hRx r hrR
          rw [hq]
          rfl
        · obtain ⟨q, hq⟩ := hRy r hrR
          rw [hq]
          rfl
    · rw [if_neg hall]
      simp [hall]
  obtain ⟨acc, hcore, hinv⟩ :=
    groupCore_ok ks (ks ++ [x, y]) hkeyallowed hkeyks
      (R.map (projOne (ks ++ [x, y]))) hfields
  have hgs : group (R.map (projOne (ks ++ [x, y]))) ks =
      .ok (acc.map (fun e => delVal e "key")) := by
    unfold group
    rw [hcore]
    rfl
  have hmemnum : ∀ c, ∀ m ∈ memsOf ks c (R.map (projOne (ks ++ [x, y]))),
      (∃ q, getV m x = .num q) ∧ (∃ q, getV m y = .num q) := by
    intro c m hm
    obtain ⟨hmem, _⟩ := List.mem_filter.1 hm
    obtain ⟨r, hrR, rfl⟩ := List.mem_map.1 hmem
    obtain ⟨qx, hqx⟩ := hRx r hrR
    obtain ⟨qy, hqy⟩ := hRy r hrR
    constructor
    · refine ⟨qx, ?_⟩
      apply getV_eq_of_findVal
      rw [findVal_projOne, if_pos hxallowed, hqx]
    · refine ⟨qy, ?_⟩
      apply getV_eq_of_findVal
      rw [findVal_projOne, if_pos hyallowed, hqy]
  have hentryx : ∀ e ∈ acc, ∃ c, EntryInv ks (ks ++ [x, y])
      (R.map (projOne (ks ++ [x, y]))) c e := hinv.entries
  have hflt : ∀ g2 ∈ acc.map (fun e => delVal e "key"),
      ∃ l, findVal g2 x = some (.arr l) := by
    intro g2 hg2
    obtain ⟨e, he, rfl⟩ := List.mem_map.1 hg2
    obtain ⟨c, hE⟩ := hentryx e he
    refine ⟨(memsOf ks c (R.map (projOne (ks ++ [x, y])))).map
      (fun r => getV r x), ?_⟩
    rw [findVal_delVal_ne e "key" x hxkey]
    exact hE.aggrvals x hxallowed hxks
  obtain ⟨gs2, hfb, hgs2⟩ := filterBig_ok x (acc.map (fun e => delVal e "key")) hflt
  have hpredict : ∀ g2 ∈ gs2, ∃ b, predictEntry x y newXs g2 = .ok b ∧
      (keysOf b = keysOf g2 ∧
        (∀ f, f ≠ x → f ≠ y → findVal b f = findVal g2 f) ∧
        (∃ l : List Val, findVal b x = some (.arr l) ∧ l.length = newXs.length) ∧
        (∃ l : List Val, findVal b y = some (.arr l) ∧
          l.length = newXs.length)) := by
    intro g2 hg2
    obtain ⟨hg2gs, l, hgl, hglen⟩ := hgs2 g2 hg2
    obtain ⟨e, he, rfl⟩ := List.mem_map.1 hg2gs
    obtain ⟨c, hE⟩ := hentryx e he
    have hfx : findVal (delVal e "key") x =
        some (.arr ((memsOf ks c (R.map (projOne (ks ++ [x, y])))).map
          (fun r => getV r x))) := by
      rw [findVal_delVal_ne e "key" x hxkey]
      exact hE.aggrvals x hxallowed hxks
    have hfy : findVal (delVal e "key") y =
        some (.arr ((memsOf ks c (R.map (projOne (ks ++ [x, y])))).map
          (fun r => getV r y))) := by
      rw [findVal_delVal_ne e "key" y hykey]
      exact hE.aggrvals y hyallowed hyks
    have hleq : l = (memsOf ks c (R.map (projOne (ks ++ [x, y])))).map
        (fun r => getV r x) := by
      have h2 := hgl.symm.trans hfx
      simpa using h2
    have htx : toNums ((memsOf ks c (R.map (projOne (ks ++ [x, y])))).map
        (fun r => getV r x)) =
        some ((memsOf ks c (R.map (projOne (ks ++ [x, y])))).map
          (fun r => (toNum? (getV r x)).getD 0)) := by
      apply toNums_map
      intro m hm
      obtain ⟨⟨q, hq⟩, _⟩ := hmemnum c m hm
      rw [hq]
      rfl
    have hty : toNums ((memsOf ks c (R.map (projOne (ks ++ [x, y])))).map
        (fun r => getV r y)) =
        some ((memsOf ks c (R.map (projOne (ks ++ [x, y])))).map
          (fun r => (toNum? (getV r y)).getD 0)) := by
      apply toNums_map
      intro m hm
      obtain ⟨_, ⟨q, hq⟩⟩ := hmemnum c m hm
      rw [hq]
      rfl
    obtain ⟨b, hok, hkeys, hother, hbx, hby⟩ :=
      predictEntry_ok x y newXs (delVal e "key") _ _ _ _ hfx hfy htx hty
        (by simp) (by rw [← hleq]; exact hglen)
    exact ⟨b, hok, hkeys, hother, hbx, hby⟩
  obtain ⟨predicted, hmapm, hpred⟩ :=
    mapM_ok_exists (predictEntry x y newXs) _ gs2 hpredict
  have hungroup : ∀ b ∈ predicted, ∃ outs, ungroupOne ks b = .ok outs := by
    intro b hb
    obtain ⟨g2, hg2, hkeys, hother, ⟨lx, hlx, hlxlen⟩, ⟨ly, hly, hlylen⟩⟩ :=
      hpred b hb
    obtain ⟨hg2gs, _, _, _⟩ := hgs2 g2 hg2
    obtain ⟨e, he, rfl⟩ := List.mem_map.1 hg2gs
    obtain ⟨c, hE⟩ := hentryx e he
    have hfieldsb : ∀ f, hasField b f = true ↔ f ∈ ks ++ [x, y] := by
      intro f
      rw [hasField_iff_mem_keysOf, hkeys, ← hasField_iff_mem_keysOf]
      by_cases hf : f = "key"
      · subst hf
        rw [hasField, findVal_delVal]
        simp only [Option.isSome_none, Bool.false_eq_true, false_iff]
        exact hkeyallowed
      · rw [hasField, findVal_delVal_ne e "key" f hf, ← hasField, hE.fields f]
        simp [hf]
    have haggrb : ∀ p, p ∈ aggrOf ks b ↔ (p = x ∨ p = y) := by
      intro p
      rw [aggrOf_mem_iff ks (ks ++ [x, y]) b hfieldsb]
      constructor
      · rintro ⟨hpF, hpks⟩
        rcases List.mem_append.1 hpF with hp | hp
        · exact absurd hp hpks
        · simpa using hp
      · rintro (rfl | rfl)
        · exact ⟨hxallowed, hxks⟩
        · exact ⟨hyallowed, hyks⟩
    have harr : ∀ p ∈ aggrOf ks b,
        ∃ l, findVal b p = some (.arr l) ∧ l.length = newXs.length := by
      intro p hp
      rcases (haggrb p).1 hp with rfl | rfl
      · exact ⟨lx, hlx, hlxlen⟩
      · exact ⟨ly, hly, hlylen⟩
    have hne : aggrOf ks b ≠ [] :=
      List.ne_nil_of_mem ((haggrb x).2 (Or.inl rfl))
    exact ⟨_, ungroupOne_eval ks b newXs.length hne harr⟩
  obtain ⟨ll, hllok, _⟩ :=
    mapM_ok_exists (ungroupOne ks) (fun _ _ => True) predicted
      (fun b hb => (hungroup b hb).imp (fun outs h => ⟨h, trivial⟩))
  refine ⟨ll.flatten, ?_⟩
  show (do
    let gs ← group (removeExtraProperties R (ks ++ [x, y])) ks
    let big ← filterBig x gs
    let predicted2 ← big.mapM (predictEntry x y newXs)
    ungroup predicted2 ks) = Except.ok ll.flatten
  rw [show removeExtraProperties R (ks ++ [x, y]) =
    R.map (projOne (ks ++ [x, y])) from rfl, hgs]
  show (do
    let big ← filterBig x (acc.map (fun e => delVal e "key"))
    let predicted2 ← big.mapM (predictEntry x y newXs)
    ungroup predicted2 ks) = Except.ok ll.flatten
  rw [hfb]
  show (do
    let predicted2 ← gs2.mapM (predictEntry x y newXs)
    ungroup predicted2 ks) = Except.ok ll.flatten
  rw [hmapm]
  show ungroup predicted ks = Except.ok ll.flatten
  unfold ungroup
  rw [hllok]
  rfl

/-- Witness for the amended C6. -/
theorem C6_witness :
    ∃ out, batchPredict eqvData ["k"] "x" "y" [5] = .ok out :=
  C6_amended eqvData ["k"] "x" "y" [5] (by decide) (by decide) (by decide)
    (by decide) (by decide) (by decide)
    (by
      intro r hr
      simp only [eqvData, List.mem_cons, List.not_mem_nil, or_false] at hr
      rcases hr with rfl | rfl
      · exact ⟨1, rfl⟩
      · exact ⟨2, rfl⟩)
    (by
      intro r hr
      simp only [eqvData, List.mem_cons, List.not_mem_nil, or_false] at hr
      rcases hr with rfl | rfl
      · exact ⟨1, rfl⟩
      · exact ⟨2, rfl⟩)

theorem frameOn_refl (n : Nat) (s : Store) : FrameOn n s s :=
  ⟨Nat.le_refl _, fun _ _ => rfl⟩

theorem frameOn_trans {n : Nat} {s1 s2 s3 : Store}
    (h1 : FrameOn n s1 s2) (h2 : FrameOn n s2 s3) : FrameOn n s1 s3 :=
  ⟨Nat.le_trans h1.len h2.len, fun a ha => (h2.pres a ha).trans (h1.pres a ha)⟩

theorem frame_write (n : Nat) (s : Store) (a : Nat) (r : Record)
    (h : n ≤ a) : FrameOn n s (writeH s a r) :=
  ⟨by simp [writeH], fun b hb => List.getElem?_set_ne (by omega)⟩

theorem frame_alloc (n : Nat) (s : Store) (r : Record) (h : n ≤ s.length) :
    FrameOn n s (allocH s r).1 :=
  ⟨by simp [allocH], fun b hb => List.getElem?_append_left (by omega)⟩

theorem frame_allocAll (n : Nat) :
    ∀ (rs : List Record) (s : Store), n ≤ s.length →
      FrameOn n s (allocAllH s rs).1
  | [], s, _ => frameOn_refl n s
  | r :: rest, s, h => by
      have h1 := frame_alloc n s r h
      have h2 := frame_allocAll n rest (allocH s r).1
        (Nat.le_trans h h1.len)
      exact frameOn_trans h1 h2

theorem frame_removeExtra (n : Nat) (allowed : List String) :
    ∀ (addrs : List Nat) (s : Store), n ≤ s.length →
      FrameOn n s (removeExtraPropertiesH allowed s addrs).1
  | [], s, _ => frameOn_refl n s
  | a :: rest, s, h => by
      have h1 := frame_alloc n s (projOne allowed (readH s a)) h
      have h2 := frame_removeExtra n allowed rest
        (allocH s (projOne allowed (readH s a))).1 (Nat.le_trans h h1.len)
      exact frameOn_trans h1 h2

theorem frame_pushProps (n : Nat) (item : Record) (ea : Nat) (h : n ≤ ea) :
    ∀ (aggr : List String) (s : Store),
      FrameOn n s (pushPropsH item ea aggr s).1
  | [], s => frameOn_refl n s
  | p :: rest, s => by
      unfold pushPropsH
      cases getV (readH s ea) p with
      | arr l =>
          exact frameOn_trans (frame_write n s ea _ h)
            (frame_pushProps n item ea h rest _)
      | str v => exact frameOn_refl n s
      | num v => exact frameOn_refl n s
      | undef => exact frameOn_refl n s

theorem findEntryH_mem (s : Store) (c : String) :
    ∀ (acc : List Nat) (ea : Nat), findEntryH s c acc = some ea → ea ∈ acc
  | [], ea, h => by cases h
  | a :: rest, ea, h => by
      rw [findEntryH] at h
      by_cases hb : Val.beq (getV (readH s a) "key") (.str c) = true
      · rw [if_pos hb] at h
        cases h
        exact List.mem_cons_self _ _
      · rw [if_neg hb] at h
        exact List.mem_cons_of_mem a (findEntryH_mem s c rest ea h)

theorem frame_step (n : Nat) (ks : List String) (s : Store) (acc : List Nat)
    (a : Nat) (hacc : ∀ b ∈ acc, n ≤ b) (hn : n ≤ s.length) :
    FrameOn n s (stepH ks s acc a).1 ∧
      (∀ acc1, (stepH ks s acc a).2 = .ok acc1 → ∀ b ∈ acc1, n ≤ b) := by
  unfold stepH
  by_cases hpass : hasAll (readH s a) ks = true
  · rw [if_pos hpass]
    dsimp only
    cases hfind : findEntryH s (compositeOf ks (readH s a)) acc with
    | some ea =>
        have hea : n ≤ ea := hacc ea (findEntryH_mem s _ acc ea hfind)
        refine ⟨frame_pushProps n (readH s a) ea hea _ s, ?_⟩
        intro acc1 h1 b hb
        dsimp only at h1
        cases hp : (pushPropsH (readH s a) ea (aggrOf ks (readH s a)) s).2 with
        | ok u =>
            rw [hp] at h1
            simp only [Except.map] at h1
            cases h1
            exact hacc b hb
        | error er =>
            rw [hp] at h1
            simp only [Except.map] at h1
            cases h1
    | none =>
        refine ⟨frame_alloc n s _ hn, ?_⟩
        intro acc1 h1 b hb
        dsimp only at h1
        cases h1
        rcases List.mem_append.1 hb with hb | hb
        · exact hacc b hb
        · rw [List.mem_singleton] at hb
          subst hb
          exact hn
  · rw [if_neg hpass]
    refine ⟨frameOn_refl n s, ?_⟩
    intro acc1 h1 b hb
    cases h1
    exact hacc b hb

theorem frame_groupCore (n : Nat) (ks : List String) :
    ∀ (rest : List Nat) (s : Store) (acc : List Nat),
      (∀ b ∈ acc, n ≤ b) → n ≤ s.length →
      FrameOn n s (groupCoreH ks s acc rest).1 ∧
        (∀ acc1, (groupCoreH ks s acc rest).2 = .ok acc1 → ∀ b ∈ acc1, n ≤ b)
  | [], s, acc, hacc, _ => ⟨frameOn_refl n s, by
      intro acc1 h1 b hb
      cases h1
      exact hacc b hb⟩
  | a :: rest, s, acc, hacc, hn => by
      obtain ⟨hf1, hb1⟩ := frame_step n ks s acc a hacc hn
      rw [groupCoreH]
      cases hs : stepH ks s acc a with
      | mk s1 r1 =>
          cases r1 with
          | ok acc1 =>
              have hacc1 : ∀ b ∈ acc1, n ≤ b := by
                have := hb1 acc1 (by rw [hs])
                exact this
              have hf1s : FrameOn n s s1 := by
                have := hf1
                rw [hs] at this
                exact this
              obtain ⟨hf2, hb2⟩ := frame_groupCore n ks rest s1 acc1 hacc1
                (Nat.le_trans hn hf1s.len)
              exact ⟨frameOn_trans hf1s hf2, hb2⟩
          | error er =>
              refine ⟨?_, ?_⟩
              · have := hf1
                rw [hs] at this
                exact this
              · intro acc1 h1
                cases h1

theorem frame_delKeys (n : Nat) :
    ∀ (addrs : List Nat) (s : Store), (∀ b ∈ addrs, n ≤ b) →
      FrameOn n s (delKeysH s addrs)
  | [], s, _ => frameOn_refl n s
  | a :: rest, s, h => by
      rw [delKeysH]
      exact frameOn_trans
        (frame_write n s a _ (h a (List.mem_cons_self a rest)))
        (frame_delKeys n rest _ (fun b hb => h b (List.mem_cons_of_mem a hb)))

theorem frame_groupH (n : Nat) (ks : List String) (s : Store)
    (addrs : List Nat) (hn : n ≤ s.length) :
    FrameOn n s (groupH ks s addrs).1 ∧
      (∀ gsad, (groupH ks s addrs).2 = .ok gsad → ∀ b ∈ gsad, n ≤ b) := by
  obtain ⟨hf1, hb1⟩ := frame_groupCore n ks addrs s []
    (fun b hb => absurd hb (List.not_mem_nil b)) hn
  unfold groupH
  cases hs : groupCoreH ks s [] addrs with
  | mk s1 r1 =>
      rw [hs] at hf1 hb1
      cases r1 with
      | ok acc =>
          have hacc : ∀ b ∈ acc, n ≤ b := hb1 acc rfl
          refine ⟨frameOn_trans hf1 (frame_delKeys n acc s1 hacc), ?_⟩
          intro gsad h1 b hb
          cases h1
          exact hacc b hb
      | error er =>
          refine ⟨hf1, ?_⟩
          intro gsad h1
          cases h1

theorem filterBigH_subset (x : String) (s : Store) :
    ∀ (addrs big : List Nat), filterBigH x s addrs = .ok big →
      ∀ b ∈ big, b ∈ addrs
  | [], big, h => by
      cases h
      intro b hb
      exact absurd hb (List.not_mem_nil b)
  | a :: rest, big, h => by
      rw [filterBigH] at h
      cases hl : lenGT1 (getV (readH s a) x) with
      | ok bl =>
          rw [hl] at h
          cases hr : filterBigH x s rest with
          | ok big2 =>
              rw [hr] at h
              have hsub := filterBigH_subset x s rest big2 hr
              cases h
              intro b hb
              by_cases hbl : bl = true
              · rw [if_pos hbl] at hb
                rcases List.mem_cons.1 hb with hb | hb
                · subst hb
                  exact List.mem_cons_self _ _
                · exact List.mem_cons_of_mem a (hsub b hb)
              · rw [if_neg hbl] at hb
                exact List.mem_cons_of_mem a (hsub b hb)
          | error er =>
              rw [hr] at h
              cases h
      | error er =>
          rw [hl] at h
          cases h

theorem frame_predictEntry (n : Nat) (x y : String) (newXs : List Rat)
    (s : Store) (ea : Nat) (h : n ≤ ea) :
    FrameOn n s (predictEntryH x y newXs s ea).1 := by
  unfold predictEntryH
  dsimp only
  split
  · split
    · split
      · exact frameOn_trans (frame_write n s ea _ h) (frame_write n _ ea _ h)
      · exact frameOn_refl n s
    · exact frameOn_refl n s
  · exact frameOn_refl n s

theorem frame_predictAll (n : Nat) (x y : String) (newXs : List Rat) :
    ∀ (addrs : List Nat) (s : Store), (∀ b ∈ addrs, n ≤ b) →
      FrameOn n s (predictAllH x y newXs s addrs).1
  | [], s, _ => frameOn_refl n s
  | a :: rest, s, h => by
      have hf1 := frame_predictEntry n x y newXs s a
        (h a (List.mem_cons_self a rest))
      rw [predictAllH]
      cases hs : predictEntryH x y newXs s a with
      | mk s1 r1 =>
          rw [hs] at hf1
          cases r1 with
          | ok u =>
              exact frameOn_trans hf1
                (frame_predictAll n x y newXs rest s1
                  (fun b hb => h b (List.mem_cons_of_mem a hb)))
          | error er => exact hf1

theorem frame_ungroupH (n : Nat) (ks : List String) :
    ∀ (addrs : List Nat) (s : Store), n ≤ s.length →
      FrameOn n s (ungroupH ks s addrs).1
  | [], s, _ => frameOn_refl n s
  | a :: rest, s, hn => by
      rw [ungroupH]
      cases ungroupOne ks (readH s a) with
      | ok outs =>
          dsimp only
          have hf1 := frame_allocAll n outs s hn
          have hf2 := frame_ungroupH n ks rest (allocAllH s outs).1
            (Nat.le_trans hn hf1.len)
          cases hu : ungroupH ks (allocAllH s outs).1 rest with
          | mk s2 r2 =>
              rw [hu] at hf2
              cases r2 with
              | ok as2 => exact frameOn_trans hf1 hf2
              | error er => exact frameOn_trans hf1 hf2
      | error er => exact frameOn_refl n s

/-- Claim C8: `batchPredict` does not mutate its input records.  In the
store-passing rendering, every object that existed before the call — in
particular every record passed in `addrs` — holds exactly the same fields and
values afterwards, whether the call returns or throws: projection and grouping
build fresh objects and all in-place writes target entry objects allocated
during the call. -/
theorem C8_no_mutation (s : Store) (addrs : List Nat) (ks : List String)
    (x y : String) (newXs : List Rat) :
    ∀ a, a < s.length →
      (batchPredictH s addrs ks x y newXs).1[a]? = s[a]? := by
  intro a ha
  unfold batchPredictH
  dsimp only
  have hf1 : FrameOn s.length s
      (removeExtraPropertiesH (ks ++ [x, y]) s addrs).1 :=
    frame_removeExtra s.length (ks ++ [x, y]) addrs s (Nat.le_refl _)
  obtain ⟨hf2, hb2⟩ := frame_groupH
    (removeExtraPropertiesH (ks ++ [x, y]) s addrs).1.length ks
    (removeExtraPropertiesH (ks ++ [x, y]) s addrs).1
    (removeExtraPropertiesH (ks ++ [x, y]) s addrs).2 (Nat.le_refl _)
  have han1 : a < (removeExtraPropertiesH (ks ++ [x, y]) s addrs).1.length :=
    Nat.lt_of_lt_of_le ha hf1.len
  cases hg : groupH ks (removeExtraPropertiesH (ks ++ [x, y]) s addrs).1
      (removeExtraPropertiesH (ks ++ [x, y]) s addrs).2 with
  | mk s2 r2 =>
      rw [hg] at hf2 hb2
      cases r2 with
      | ok gsad =>
          dsimp only
          have hgsad := hb2 gsad rfl
          cases hfb : filterBigH x s2 gsad with
          | ok big =>
              have hbig : ∀ b ∈ big,
                  (removeExtraPropertiesH (ks ++ [x, y]) s addrs).1.length ≤ b :=
                fun b hb =>
                  hgsad b (filterBigH_subset x s2 gsad big hfb b hb)
              have hf3 := frame_predictAll
                (removeExtraPropertiesH (ks ++ [x, y]) s addrs).1.length
                x y newXs big s2 hbig
              dsimp only
              cases hp : predictAllH x y newXs s2 big with
              | mk s3 r3 =>
                  rw [hp] at hf3
                  cases r3 with
                  | ok u =>
                      dsimp only
                      have hf4 := frame_ungroupH
                        (removeExtraPropertiesH (ks ++ [x, y]) s addrs).1.length
                        ks big s3 (Nat.le_trans hf2.len hf3.len)
                      have htot := frameOn_trans hf2 (frameOn_trans hf3 hf4)
                      rw [htot.pres a han1, hf1.pres a ha]
                  | error er =>
                      dsimp only
                      have htot := frameOn_trans hf2 hf3
                      rw [htot.pres a han1, hf1.pres a ha]
          | error er =>
              dsimp only
              rw [hf2.pres a han1, hf1.pres a ha]
      | error er =>
          dsimp only
          rw [hf2.pres a han1, hf1.pres a ha]

/-- Witness for C8 on a concrete store holding the two-record dataset. -/
theorem C8_witness :
    (0 < (eqvData : Store).length ∧
      (batchPredictH eqvData [0, 1] ["k"] "x" "y" [3]).1[0]? =
        (eqvData : Store)[0]?) ∧
    (1 < (eqvData : Store).length ∧
      (batchPredictH eqvData [0, 1] ["k"] "x" "y" [3]).1[1]? =
        (eqvData : Store)[1]?) :=
  ⟨⟨by decide, C8_no_mutation eqvData [0, 1] ["k"] "x" "y" [3] 0 (by decide)⟩,
   ⟨by decide, C8_no_mutation eqvData [0, 1] ["k"] "x" "y" [3] 1 (by decide)⟩⟩

end DatasetStats
